import Mathlib

/-!
Verification of the node-postman repository (DKIM signing and SMTP delivery).

The TypeScript sources are shallowly embedded as executable Lean functions on
`List Char` / `String`.  JavaScript strings are modelled as `List Char`;
JavaScript regular-expression operations used by the code are implemented as
recursive list functions with the same semantics on the inputs involved.
External effects (the SHA-256 hash, RSA signing, IDNA conversion via the URL
class, DNS results, the CSPRNG and the clock) are passed in as parameters, so
every embedded operation is a pure function of its inputs.
-/

/-- The character class of the JavaScript regex `\s` (and of `String.prototype.trim`):
tab, LF, VT, FF, CR, space, NBSP, and the Unicode space separators. -/
def jsWS (c : Char) : Bool :=
  c.toNat = 9 || c.toNat = 10 || c.toNat = 11 || c.toNat = 12 || c.toNat = 13 ||
  c.toNat = 32 || c.toNat = 0xa0 || c.toNat = 0x1680 ||
  (0x2000 ≤ c.toNat && c.toNat ≤ 0x200a) ||
  c.toNat = 0x2028 || c.toNat = 0x2029 || c.toNat = 0x202f || c.toNat = 0x205f ||
  c.toNat = 0x3000 || c.toNat = 0xfeff

/-- JS `str.replace(/\s*$/, '')` (right trim). -/
def trimR (l : List Char) : List Char := (l.reverse.dropWhile jsWS).reverse

/-- Left trim with the JS whitespace class. -/
def trimL (l : List Char) : List Char := l.dropWhile jsWS

/-- JS `str.trim()`. -/
def trimB (l : List Char) : List Char := trimL (trimR l)

theorem length_dropWhile_le {α : Type} (p : α → Bool) (l : List α) :
    (l.dropWhile p).length ≤ l.length := by
  induction l with
  | nil => simp [List.dropWhile]
  | cons c r ih =>
    simp only [List.dropWhile]
    cases p c
    · simp
    · simp only [List.length_cons]
      exact Nat.le_succ_of_le ih

/-- Helper for `collapseWS`; the flag records whether we are inside a whitespace
run whose single replacement space has already been emitted. -/
def collapseAux : Bool → List Char → List Char
  | _, [] => []
  | inWS, c :: r =>
    if jsWS c then
      if inWS then collapseAux true r else ' ' :: collapseAux true r
    else c :: collapseAux false r

/-- JS `str.replace(/\s+/g, ' ')`: every maximal run of whitespace becomes one space. -/
def collapseWS (l : List Char) : List Char := collapseAux false l

theorem collapseAux_true (l : List Char) :
    collapseAux true l = collapseAux false (l.dropWhile jsWS) := by
  induction l with
  | nil => rfl
  | cons c r ih =>
    by_cases h : jsWS c = true
    · simp [collapseAux, h, List.dropWhile, ih]
    · simp only [Bool.not_eq_true] at h
      simp [collapseAux, h, List.dropWhile]

/-- The one-step unfolding of `collapseWS` in the form of the regex replace:
a whitespace head swallows the whole whitespace run. -/
theorem collapseWS_cons (c : Char) (r : List Char) :
    collapseWS (c :: r) =
      if jsWS c then ' ' :: collapseWS (r.dropWhile jsWS) else c :: collapseWS r := by
  by_cases h : jsWS c = true
  · simp [collapseWS, collapseAux, h, collapseAux_true]
  · simp only [Bool.not_eq_true] at h
    simp [collapseWS, collapseAux, h]

/-- Splitting a list at every occurrence of a separator character, JS `str.split(sep)`. -/
def splitCh (sep : Char) : List Char → List (List Char)
  | [] => [[]]
  | c :: r =>
    if c = sep then [] :: splitCh sep r
    else
      match splitCh sep r with
      | [] => [[c]]
      | h :: t => (c :: h) :: t

/-- Helper for `normNL`: the flag records whether the previous character was a CR
whose replacement LF has already been emitted, so that an LF directly following it
belongs to the same `\r?\n` match and is swallowed. -/
def normAux : Bool → List Char → List Char
  | _, [] => []
  | pendCR, c :: r =>
    if c = '\r' then '\n' :: normAux true r
    else if c = '\n' then
      if pendCR then normAux false r else '\n' :: normAux false r
    else c :: normAux false r

/-- JS `str.replace(/\r?\n|\r/g, '\n')`: normalize CRLF, lone CR and LF to LF. -/
def normNL (l : List Char) : List Char := normAux false l

/-- JS `str.replace(/\n/g, '\r\n')`. -/
def emitCRLF : List Char → List Char
  | [] => []
  | c :: r => if c = '\n' then '\r' :: '\n' :: emitCRLF r else c :: emitCRLF r

/-- JS `str.replace(/\n*$/, '')`: drop the trailing run of LF characters. -/
def stripNLend (t : List Char) : List Char :=
  (t.reverse.dropWhile (fun c => c = '\n')).reverse

/-- One line of the relaxed body canonicalization: `line.replace(/\s*$/, '').replace(/\s+/g, ' ')`
from `DKIMCanonicalizer.relaxedBody`. -/
def cleanLine (l : List Char) : List Char := collapseWS (trimR l)

/-- The logical lines a body is reduced to by `relaxedBody`: newline-normalized,
split at LF, and each line cleaned. -/
def cleanedLines (b : List Char) : List (List Char) :=
  (splitCh '\n' (normNL b)).map cleanLine

/-- `DKIMCanonicalizer.relaxedBody` on character lists: normalize newlines to LF, split,
right-trim and whitespace-collapse every line, rejoin, force exactly one trailing LF,
and re-emit every LF as CRLF. -/
def relaxedBodyL (b : List Char) : List Char :=
  emitCRLF (stripNLend (List.intercalate ['\n'] (cleanedLines b)) ++ ['\n'])

/-- `DKIMCanonicalizer.relaxedBody` (dkim.ts, relaxed body canonicalization per RFC 4871 §3.4.4). -/
def relaxedBody (b : String) : String := ⟨relaxedBodyL b.data⟩

example : relaxedBody "Hello  world  \r\n\r\n\r\n" = "Hello world\r\n" := by decide
example : relaxedBody "" = "\r\n" := by decide
example : relaxedBody " \t " = "\r\n" := by decide
example : relaxedBody "a\rb\nc\r\nd" = "a\r\nb\r\nc\r\nd\r\n" := by decide

/-! ## Relaxed header canonicalization (`DKIMCanonicalizer.relaxedHeaders` / `relaxedHeaderLine`) -/

/-- JS `headers.split(/\r?\n|\r/)` as used by `relaxedHeaders`. -/
def splitNLre : List Char → List (List Char)
  | [] => [[]]
  | '\r' :: '\n' :: r => [] :: splitNLre r
  | '\r' :: r => [] :: splitNLre r
  | '\n' :: r => [] :: splitNLre r
  | c :: r =>
    match splitNLre r with
    | [] => [[c]]
    | h :: t => (c :: h) :: t

/-- JS `str.toLowerCase()` (ASCII behaviour, which is all the code relies on). -/
def lowerStr (l : List Char) : List Char := l.map Char.toLower

/-- `DKIMCanonicalizer.relaxedHeaderLine` on character lists: split at `':'`, the
lowercased trimmed first part is the key, the rest rejoined with `':'`,
whitespace-collapsed and trimmed, is the value. -/
def relaxedHeaderLineL (line : List Char) : List Char × List Char :=
  let parts := splitCh ':' line
  (trimB (lowerStr parts.headI), trimB (collapseWS (List.intercalate [':'] parts.tail)))

/-- Does a header line start with whitespace (JS `line.match(/^\s/)`)? -/
def startsWS : List Char → Bool
  | [] => false
  | c :: _ => jsWS c

/-- Helper of `unfoldJoin`: the current base line absorbs following continuation lines. -/
def unfoldGo (cur : List Char) : List (List Char) → List (List Char)
  | [] => [cur]
  | y :: ys => if startsWS y then unfoldGo (cur ++ y) ys else cur :: unfoldGo y ys

/-- The "join lines" pass of `relaxedHeaders`: a raw line starting with whitespace is
appended to the previous line (the first line is always a base line, as the source
guards with `i &&`).  The source performs this with in-place `splice` during its
bottom-up scan; the result is the same list of logical header lines. -/
def unfoldJoin : List (List Char) → List (List Char)
  | [] => []
  | x :: xs => unfoldGo x xs

/-- Association-list lookup modelling property access on the `headerFields` object. -/
def lookupKV : List (List Char × List Char) → List Char → Option (List Char)
  | [], _ => none
  | (k, v) :: t, key => if k = key then some v else lookupKV t key

/-- JS truthiness of an own-property read: absent keys and the empty string are falsy. -/
def jsTruthy : Option (List Char) → Bool
  | none => false
  | some [] => false
  | some (_ :: _) => true

/-- The `Object.prototype` member names a header key can coincide with.  The
`headerFields` object is a plain literal, so `key in headerFields` and
`headerFields[key]` consult the prototype chain; header keys are lowercased by
`relaxedHeaderLine`, and the only all-lowercase own property names of
`Object.prototype` are `constructor` and `__proto__`. -/
def protoKey (k : List Char) : Bool :=
  decide (k = "constructor".data ∨ k = "__proto__".data)

/-- The string coercion of the inherited value read by `headerFields[name]` when no
own property exists: `({}).constructor` is the `Object` function (stringified by V8
as its source text), `({}).__proto__` is `Object.prototype` itself (stringified as
`[object Object]`), and any other absent key reads `undefined`. -/
def protoString (k : List Char) : List Char :=
  if k = "constructor".data then "function Object() \x7b [native code] \x7d".data
  else if k = "__proto__".data then "[object Object]".data
  else "undefined".data

/-- JS truthiness of the full property read `headerFields[name]`: a recorded own
value is truthy iff non-empty; with no own property the read falls back to the
prototype chain, where `constructor` and `__proto__` yield truthy objects. -/
def fieldTruthy (hf : List (List Char × List Char)) (name : List Char) : Bool :=
  match lookupKV hf name with
  | some v => jsTruthy (some v)
  | none => protoKey name

/-- The string rendered for `headerFields[name]` by `name + ':' + headerFields[name]`
in the output loop: the own value if recorded, else the stringified inherited one. -/
def fieldString (hf : List (List Char × List Char)) (name : List Char) : List Char :=
  match lookupKV hf name with
  | some v => v
  | none => protoString name

/-- One step of the bottom-up recording scan of `relaxedHeaders`: a key/value pair is
recorded only if the key is a requested field name and the `in` test fails
(`includedFields.indexOf(line.key) >= 0 && !(line.key in headerFields)`).  The `in`
operator also sees inherited properties, so the keys `constructor` and `__proto__`
are never recorded. -/
def recordStep (included : List (List Char)) (acc : List (List Char × List Char))
    (kv : List Char × List Char) : List (List Char × List Char) :=
  if kv.1 ∈ included ∧ protoKey kv.1 = false ∧ lookupKV acc kv.1 = none then
    acc ++ [kv]
  else acc

/-- The `headerFields` object after the bottom-up scan of the logical header lines. -/
def recordFields (included : List (List Char)) (logical : List (List Char)) :
    List (List Char × List Char) :=
  ((logical.map relaxedHeaderLineL).reverse).foldl (recordStep included) []

/-- `fieldNames.toLowerCase().split(':').map(trim)` from `relaxedHeaders`. -/
def parseFields (fieldNames : List Char) : List (List Char) :=
  (splitCh ':' (lowerStr fieldNames)).map trimB

/-- The kept field names of `relaxedHeaders`, in requested order: the output loop
splices out every requested name whose property read `headerFields[name]` is falsy
(so `constructor` and `__proto__` always survive via the prototype chain). -/
def relaxedHeadersKept (headers fieldNames : List Char) : List (List Char) :=
  let included := parseFields fieldNames
  let hf := recordFields included (unfoldJoin (splitNLre headers))
  included.filter (fun f => fieldTruthy hf f)

/-- The canonical header lines (`name:value`) of `relaxedHeaders`, in requested order. -/
def relaxedHeadersLines (headers fieldNames : List Char) : List (List Char) :=
  let included := parseFields fieldNames
  let hf := recordFields included (unfoldJoin (splitNLre headers))
  included.filterMap (fun f =>
    if fieldTruthy hf f then some (f ++ ':' :: fieldString hf f) else none)

/-- Result record of `DKIMCanonicalizer.relaxedHeaders`. -/
structure RelaxedHeaders where
  headers : String
  fieldNames : String
deriving DecidableEq, Repr

/-- `DKIMCanonicalizer.relaxedHeaders` (dkim.ts): unfold continuation lines, scan
bottom-up recording the first hit per requested name, then render the surviving
names in requested order, each line terminated by CRLF. -/
def relaxedHeaders (headers fieldNames : String) : RelaxedHeaders :=
  ⟨⟨List.intercalate ['\r', '\n'] (relaxedHeadersLines headers.data fieldNames.data) ++
      ['\r', '\n']⟩,
   ⟨List.intercalate [':'] (relaxedHeadersKept headers.data fieldNames.data)⟩⟩

example :
    relaxedHeaders "From: a@x\r\nSubject: Hi\r\n there\r\n" "from:subject" =
      ⟨"from:a@x\r\nsubject:Hi there\r\n", "from:subject"⟩ := by decide
example :
    relaxedHeaders "Subject: top\r\nSubject: bottom\r\n" "subject" =
      ⟨"subject:bottom\r\n", "subject"⟩ := by decide
example :
    relaxedHeaders "From:\r\nSubject: Hi\r\n" "from:subject" =
      ⟨"subject:Hi\r\n", "subject"⟩ := by decide
example :
    relaxedHeaders "Constructor: a\r\nConstructor: b\r\n" "constructor" =
      ⟨"constructor:function Object() \x7b [native code] \x7d\r\n", "constructor"⟩ := by
  decide
example :
    relaxedHeaders "X: 1\r\n" "x:__proto__" =
      ⟨"x:1\r\n__proto__:[object Object]\r\n", "x:__proto__"⟩ := by decide

/-! ## Characterizing `relaxedHeaders` by the bottommost occurrence of each name -/

/-- The logical header lines of a raw header block, as (key, value) pairs. -/
def logicalKV (headers : List Char) : List (List Char × List Char) :=
  (unfoldJoin (splitNLre headers)).map relaxedHeaderLineL

/-- The canonicalized value of the bottommost logical header line carrying `name`. -/
def lastKV (name : List Char) (kvs : List (List Char × List Char)) : Option (List Char) :=
  (kvs.reverse.find? (fun kv => decide (kv.1 = name))).map (fun kv => kv.2)

/-- The rendered `name:value` line `relaxedHeaders` would keep for `name`, if any:
for the prototype-chain keys `constructor` and `__proto__` always the stringified
inherited value; otherwise the bottommost occurrence, provided its canonical value
is non-empty. -/
def selectedLine (headers : List Char) (name : List Char) : Option (List Char) :=
  if protoKey name then some (name ++ ':' :: protoString name)
  else
    match lastKV name (logicalKV headers) with
    | some (a :: v) => some (name ++ ':' :: a :: v)
    | _ => none

theorem lookupKV_append (l₁ l₂ : List (List Char × List Char)) (name : List Char) :
    lookupKV (l₁ ++ l₂) name =
      match lookupKV l₁ name with
      | some v => some v
      | none => lookupKV l₂ name := by
  induction l₁ with
  | nil => simp [lookupKV]
  | cons kv t ih =>
    obtain ⟨k, v⟩ := kv
    by_cases h : k = name
    · simp [lookupKV, h]
    · simp [lookupKV, h, ih]

theorem lookupKV_foldl_recordStep (included : List (List Char))
    (kvs : List (List Char × List Char)) :
    ∀ (acc : List (List Char × List Char)) (name : List Char),
      lookupKV (kvs.foldl (recordStep included) acc) name =
        match lookupKV acc name with
        | some v => some v
        | none =>
          if name ∈ included ∧ protoKey name = false then
            (kvs.find? (fun kv => decide (kv.1 = name))).map (fun kv => kv.2)
          else none := by
  induction kvs with
  | nil =>
    intro acc name
    cases h : lookupKV acc name <;> simp [h]
  | cons kv kvs ih =>
    intro acc name
    simp only [List.foldl_cons]
    rw [ih]
    cases hacc : lookupKV acc name with
    | some v =>
      have hacc' : lookupKV (recordStep included acc kv) name = some v := by
        unfold recordStep
        split
        · rw [lookupKV_append, hacc]
        · exact hacc
      simp [hacc']
    | none =>
      by_cases hk : kv.1 = name
      · subst hk
        by_cases hin : kv.1 ∈ included ∧ protoKey kv.1 = false
        · have hacc' : lookupKV (recordStep included acc kv) kv.1 = some kv.2 := by
            unfold recordStep
            rw [if_pos ⟨hin.1, hin.2, hacc⟩, lookupKV_append, hacc]
            simp [lookupKV]
          simp [hacc', hin.1, hin.2, List.find?]
        · have hacc' : lookupKV (recordStep included acc kv) kv.1 = none := by
            unfold recordStep
            rw [if_neg (by tauto)]
            exact hacc
          simp [hacc', hin, List.find?]
      · have hacc' : lookupKV (recordStep included acc kv) name = none := by
          unfold recordStep
          split
          · rw [lookupKV_append, hacc]
            simp [lookupKV, hk]
          · exact hacc
        simp only [hacc', hacc]
        have : (List.find? (fun kv => decide (kv.1 = name)) (kv :: kvs)) =
            List.find? (fun kv => decide (kv.1 = name)) kvs := by
          simp [List.find?, hk]
        rw [this]

/-- Lookup in the recorded `headerFields`: for a requested name off the prototype
chain it is exactly the value of the bottommost logical line with that key. -/
theorem lookupKV_recordFields (included : List (List Char)) (logical : List (List Char))
    (name : List Char) (hin : name ∈ included) (hpk : protoKey name = false) :
    lookupKV (recordFields included logical) name =
      lastKV name (logical.map relaxedHeaderLineL) := by
  unfold recordFields lastKV
  rw [lookupKV_foldl_recordStep]
  simp [lookupKV, hin, hpk]

/-- The prototype-chain keys are never recorded, so their own lookup stays empty. -/
theorem lookupKV_recordFields_proto (included : List (List Char))
    (logical : List (List Char)) (name : List Char) (hpk : protoKey name = true) :
    lookupKV (recordFields included logical) name = none := by
  unfold recordFields
  rw [lookupKV_foldl_recordStep]
  simp [lookupKV, hpk]

theorem relaxedHeadersLines_eq (h f : List Char) :
    relaxedHeadersLines h f = (parseFields f).filterMap (selectedLine h) := by
  unfold relaxedHeadersLines
  apply List.filterMap_congr
  intro n hn
  cases hpk : protoKey n with
  | true =>
    have hl := lookupKV_recordFields_proto (parseFields f) (unfoldJoin (splitNLre h))
      n hpk
    simp [fieldTruthy, fieldString, hl, hpk, selectedLine]
  | false =>
    have hl := lookupKV_recordFields (parseFields f) (unfoldJoin (splitNLre h))
      n hn hpk
    simp only [fieldTruthy, fieldString, hl, selectedLine, logicalKV, hpk,
      Bool.false_eq_true, if_false]
    cases hlast : lastKV n ((unfoldJoin (splitNLre h)).map relaxedHeaderLineL) with
    | none => rfl
    | some v => cases v <;> rfl

theorem relaxedHeadersKept_eq (h f : List Char) :
    relaxedHeadersKept h f =
      (parseFields f).filter
        (fun n => protoKey n || jsTruthy (lastKV n (logicalKV h))) := by
  unfold relaxedHeadersKept
  apply List.filter_congr
  intro n hn
  cases hpk : protoKey n with
  | true =>
    have hl := lookupKV_recordFields_proto (parseFields f) (unfoldJoin (splitNLre h))
      n hpk
    simp [fieldTruthy, hl, hpk]
  | false =>
    have hl := lookupKV_recordFields (parseFields f) (unfoldJoin (splitNLre h))
      n hn hpk
    simp only [fieldTruthy, hl, logicalKV, Bool.false_or, hpk]
    cases hlast : lastKV n ((unfoldJoin (splitNLre h)).map relaxedHeaderLineL) with
    | none => rfl
    | some v => cases v <;> rfl

theorem mem_splitCh_not_sep (sep : Char) (l : List Char) :
    ∀ piece ∈ splitCh sep l, sep ∉ piece := by
  induction l with
  | nil =>
    intro piece hp
    simp [splitCh] at hp
    simp [hp]
  | cons c r ih =>
    intro piece hp
    by_cases hc : c = sep
    · simp only [splitCh, if_pos hc, List.mem_cons] at hp
      rcases hp with hp | hp
      · simp [hp]
      · exact ih piece hp
    · simp only [splitCh, if_neg hc] at hp
      rcases hsp : splitCh sep r with _ | ⟨h₀, t⟩
      · rw [hsp] at hp
        simp at hp
        subst hp
        intro hmem
        rcases List.mem_singleton.mp hmem with h
        exact hc h.symm
      · rw [hsp] at hp
        rcases List.mem_cons.mp hp with hp | hp
        · subst hp
          intro hmem
          rcases List.mem_cons.mp hmem with h | h
          · exact hc h.symm
          · exact ih h₀ (by rw [hsp]; exact List.mem_cons_self _ _) h
        · exact ih piece (by rw [hsp]; exact List.mem_cons_of_mem _ hp)

theorem trimB_subset (l : List Char) : ∀ c ∈ trimB l, c ∈ l := by
  intro c hc
  unfold trimB trimL trimR at hc
  have h1 := List.dropWhile_sublist (l := (l.reverse.dropWhile jsWS).reverse) (p := jsWS)
  have h2 := List.dropWhile_sublist (l := l.reverse) (p := jsWS)
  have := h1.mem hc
  rw [List.mem_reverse] at this
  have := h2.mem this
  rwa [List.mem_reverse] at this

theorem mem_parseFields_no_colon (f : List Char) (name : List Char)
    (h : name ∈ parseFields f) : ':' ∉ name := by
  unfold parseFields at h
  rcases List.mem_map.mp h with ⟨piece, hp, rfl⟩
  intro hc
  exact mem_splitCh_not_sep ':' (lowerStr f) piece hp (trimB_subset piece _ hc)

theorem append_colon_inj (a₁ b₁ a₂ b₂ : List Char)
    (h : a₁ ++ ':' :: b₁ = a₂ ++ ':' :: b₂) (h₁ : ':' ∉ a₁) (h₂ : ':' ∉ a₂) :
    a₁ = a₂ ∧ b₁ = b₂ := by
  induction a₁ generalizing a₂ with
  | nil =>
    cases a₂ with
    | nil => simpa using h
    | cons c t =>
      simp only [List.nil_append, List.cons_append, List.cons.injEq] at h
      exact absurd (h.1 ▸ List.mem_cons_self c t) h₂
  | cons c t ih =>
    cases a₂ with
    | nil =>
      simp only [List.cons_append, List.nil_append, List.cons.injEq] at h
      exact absurd (h.1 ▸ List.mem_cons_self c t) h₁
    | cons c' t' =>
      simp only [List.cons_append, List.cons.injEq] at h
      have := ih t' (by rw [h.2]) (fun hm => h₁ (List.mem_cons_of_mem _ hm))
          (fun hm => h₂ (List.mem_cons_of_mem _ hm))
      exact ⟨by rw [h.1, this.1], this.2⟩

/-! ## Claims C1, C3, C7 -/

/-- C1 (counterexample): with two `Subject` headers, `relaxedHeaders` signs the value of
the BOTTOM occurrence, not the first (topmost) one as the claim states. -/
theorem C1_cx_bottom_occurrence_wins :
    (relaxedHeaders "Subject: top\r\nSubject: bottom\r\n" "subject").headers =
        "subject:bottom\r\n" ∧
      (relaxedHeaders "Subject: top\r\nSubject: bottom\r\n" "subject").headers ≠
        "subject:top\r\n" := by
  exact ⟨by decide, by decide⟩

/-- C1 (amended): when a requested header name — other than the prototype-chain keys
`constructor` and `__proto__`, which the source can never record — occurs several
times, the canonical block includes the value of the LAST (bottommost) logical
occurrence, provided it is non-empty, and the values of all other occurrences are
ignored: every canonical line for that name carries exactly the bottommost value. -/
theorem C1_last_occurrence_selected (hdrs fields name v : String)
    (h0 : protoKey name.data = false)
    (h1 : name.data ∈ parseFields fields.data)
    (h2 : lastKV name.data (logicalKV hdrs.data) = some v.data)
    (h3 : v.data ≠ []) :
    (name.data ++ ':' :: v.data) ∈ relaxedHeadersLines hdrs.data fields.data ∧
      ∀ w : String,
        (name.data ++ ':' :: w.data) ∈ relaxedHeadersLines hdrs.data fields.data → w = v := by
  have hsel : selectedLine hdrs.data name.data = some (name.data ++ ':' :: v.data) := by
    unfold selectedLine
    rw [if_neg (by simp [h0]), h2]
    cases hv : v.data with
    | nil => exact absurd hv h3
    | cons a t => rfl
  constructor
  · rw [relaxedHeadersLines_eq]
    exact List.mem_filterMap.mpr ⟨name.data, h1, hsel⟩
  · intro w hw
    rw [relaxedHeadersLines_eq] at hw
    rcases List.mem_filterMap.mp hw with ⟨n', hn', hsel'⟩
    unfold selectedLine at hsel'
    by_cases hpk' : protoKey n' = true
    · rw [if_pos hpk'] at hsel'
      simp only [Option.some.injEq] at hsel'
      have hinj := append_colon_inj n' (protoString n') name.data w.data hsel'
        (mem_parseFields_no_colon _ _ hn') (mem_parseFields_no_colon _ _ h1)
      have hc : protoKey name.data = true := hinj.1 ▸ hpk'
      rw [h0] at hc
      exact absurd hc (by simp)
    · rw [if_neg hpk'] at hsel'
      rcases hlast : lastKV n' (logicalKV hdrs.data) with _ | v'
      · rw [hlast] at hsel'
        simp at hsel'
      · rw [hlast] at hsel'
        cases v' with
        | nil => simp at hsel'
        | cons a t =>
          simp only [Option.some.injEq] at hsel'
          have hinj := append_colon_inj n' (a :: t) name.data w.data hsel'
            (mem_parseFields_no_colon _ _ hn') (mem_parseFields_no_colon _ _ h1)
          have hn'eq : n' = name.data := hinj.1
          rw [hn'eq, h2] at hlast
          have : w.data = v.data := by
            rw [← hinj.2]
            exact (Option.some.injEq _ _ ▸ hlast.symm)
          calc w = ⟨w.data⟩ := rfl
            _ = ⟨v.data⟩ := by rw [this]
            _ = v := rfl

/-- C1 (witness): in a block with two `X` headers the bottommost value `two` is kept. -/
theorem C1_last_occurrence_selected_witness :
    ("x".data ++ ':' :: "two".data) ∈
      relaxedHeadersLines "X: one\r\nX: two\r\n".data "x".data :=
  (C1_last_occurrence_selected "X: one\r\nX: two\r\n" "x" "x" "two"
    (by decide) (by decide) (by decide) (by decide)).1

/-- C3 (counterexample): a requested header that occurs in the block with an empty value
is not kept, so kept-names is not "exactly the requested names that occur". -/
theorem C3_cx_empty_value_not_kept :
    (relaxedHeaders "From:\r\n" "from").fieldNames = "" ∧
      (relaxedHeaders "From:\r\n" "from").headers = "\r\n" := by
  exact ⟨by decide, by decide⟩

/-- C3 (amended): `relaxedHeaders` keeps exactly the requested names (lowercased and
trimmed, in requested order) whose selected — bottommost — occurrence has a non-empty
canonicalized value, together with the prototype-chain names `constructor` and
`__proto__`, which are always kept because the property read is inherited and
truthy; the canonical block joins for those names the selected lines each followed
by CRLF; and the concrete S2 example behaves as the claim states. -/
theorem C3_requested_names_order (hdrs fields : String) :
    (relaxedHeaders hdrs fields).fieldNames =
        ⟨List.intercalate [':']
          ((parseFields fields.data).filter
            (fun n => protoKey n || jsTruthy (lastKV n (logicalKV hdrs.data))))⟩ ∧
      (relaxedHeaders hdrs fields).headers =
        ⟨List.intercalate ['\r', '\n']
            ((parseFields fields.data).filterMap (selectedLine hdrs.data)) ++
          ['\r', '\n']⟩ ∧
      relaxedHeaders "From: a@x\r\nSubject: Hi\r\n there\r\n" "from:subject" =
        ⟨"from:a@x\r\nsubject:Hi there\r\n", "from:subject"⟩ := by
  refine ⟨?_, ?_, by decide⟩
  · show String.mk _ = String.mk _
    rw [relaxedHeadersKept_eq]
  · show String.mk _ = String.mk _
    rw [relaxedHeadersLines_eq]

/-- C7 (counterexample): the header `From:` has an empty value, and `relaxedHeaders`
drops it — `from` is missing from kept-names and from the canonical block,
contradicting the claim that such a header is kept. -/
theorem C7_cx_empty_value_dropped :
    (relaxedHeaders "From:\r\nSubject: Hi\r\n" "from:subject").fieldNames = "subject" ∧
      (relaxedHeaders "From:\r\nSubject: Hi\r\n" "from:subject").headers =
        "subject:Hi\r\n" := by
  exact ⟨by decide, by decide⟩

/-- C7 (amended): a requested header — other than the prototype-chain keys
`constructor` and `__proto__`, which the inherited truthy read always keeps — whose
selected (bottommost) occurrence canonicalizes to an empty value is DROPPED: its
name does not survive into kept-names and no canonical line for it appears in the
block.  (The source tests `!headerFields[name]`, and the empty string is falsy.) -/
theorem C7_empty_value_header_dropped (hdrs fields name : String)
    (h0 : protoKey name.data = false)
    (h1 : name.data ∈ parseFields fields.data)
    (h2 : lastKV name.data (logicalKV hdrs.data) = some []) :
    name.data ∉ relaxedHeadersKept hdrs.data fields.data ∧
      ∀ w : String,
        (name.data ++ ':' :: w.data) ∉ relaxedHeadersLines hdrs.data fields.data := by
  constructor
  · rw [relaxedHeadersKept_eq]
    intro hmem
    have := List.of_mem_filter hmem
    rw [h2, h0] at this
    simp [jsTruthy] at this
  · intro w hw
    rw [relaxedHeadersLines_eq] at hw
    rcases List.mem_filterMap.mp hw with ⟨n', hn', hsel'⟩
    unfold selectedLine at hsel'
    by_cases hpk' : protoKey n' = true
    · rw [if_pos hpk'] at hsel'
      simp only [Option.some.injEq] at hsel'
      have hinj := append_colon_inj n' (protoString n') name.data w.data hsel'
        (mem_parseFields_no_colon _ _ hn') (mem_parseFields_no_colon _ _ h1)
      have hc : protoKey name.data = true := hinj.1 ▸ hpk'
      rw [h0] at hc
      exact absurd hc (by simp)
    · rw [if_neg hpk'] at hsel'
      rcases hlast : lastKV n' (logicalKV hdrs.data) with _ | v'
      · rw [hlast] at hsel'
        simp at hsel'
      · rw [hlast] at hsel'
        cases v' with
        | nil => simp at hsel'
        | cons a t =>
          simp only [Option.some.injEq] at hsel'
          have hinj := append_colon_inj n' (a :: t) name.data w.data hsel'
            (mem_parseFields_no_colon _ _ hn') (mem_parseFields_no_colon _ _ h1)
          rw [hinj.1, h2] at hlast
          simp at hlast

/-- C7 (witness): the empty-valued requested header `a` is indeed dropped from
kept-names on a concrete block. -/
theorem C7_empty_value_header_dropped_witness :
    "a".data ∉ relaxedHeadersKept "A:\r\nB: x\r\n".data "a:b".data :=
  (C7_empty_value_header_dropped "A:\r\nB: x\r\n" "a:b" "a"
    (by decide) (by decide) (by decide)).1

/-! ## Algebraic properties of the relaxed body canonicalization -/

theorem dropWhile_all {α : Type} (p : α → Bool) (l : List α) (h : ∀ c ∈ l, p c = true) :
    l.dropWhile p = [] :=
  List.dropWhile_eq_nil_iff.mpr h

theorem dropWhile_head_false {α : Type} (p : α → Bool) (l : List α) (c : α) (t : List α)
    (h : l.dropWhile p = c :: t) : p c = false := by
  induction l with
  | nil => simp [List.dropWhile] at h
  | cons a r ih =>
    rw [List.dropWhile_cons] at h
    by_cases ha : p a = true
    · rw [if_pos ha] at h
      exact ih h
    · rw [if_neg ha] at h
      injection h with h1 h2
      simp only [Bool.not_eq_true] at ha
      rw [← h1]
      exact ha

theorem dropWhile_append_of_head {α : Type} (p : α → Bool) (u : List α) (c : α)
    (v : List α) (hc : p c = false) :
    (u ++ c :: v).dropWhile p = u.dropWhile p ++ c :: v := by
  rw [List.dropWhile_append]
  split
  · rename_i h
    rw [List.isEmpty_iff] at h
    rw [h, List.nil_append]
    simp [List.dropWhile, hc]
  · rfl

theorem dropWhile_append_all {α : Type} (p : α → Bool) (u v : List α)
    (hu : ∀ c ∈ u, p c = true) :
    (u ++ v).dropWhile p = v.dropWhile p := by
  rw [List.dropWhile_append, dropWhile_all p u hu]
  simp

theorem trimR_nil : trimR [] = [] := rfl

theorem trimR_append_ws (l w : List Char) (hw : ∀ c ∈ w, jsWS c = true) :
    trimR (l ++ w) = trimR l := by
  unfold trimR
  rw [List.reverse_append, dropWhile_append_all jsWS w.reverse l.reverse
    (by intro c hc; exact hw c (List.mem_reverse.mp hc))]

theorem trimR_ends_nonws (l : List Char) (c : Char) (hc : jsWS c = false) :
    trimR (l ++ [c]) = l ++ [c] := by
  unfold trimR
  rw [List.reverse_append]
  simp [List.dropWhile, hc]

theorem trimR_subset (l : List Char) : ∀ c ∈ trimR l, c ∈ l := by
  intro c hc
  unfold trimR at hc
  rw [List.mem_reverse] at hc
  have := (List.dropWhile_sublist (l := l.reverse) (p := jsWS)).mem hc
  exact List.mem_reverse.mp this

theorem trimR_cases (l : List Char) :
    trimR l = [] ∨ ∃ z c, trimR l = z ++ [c] ∧ jsWS c = false := by
  unfold trimR
  rcases h : l.reverse.dropWhile jsWS with _ | ⟨c, t⟩
  · left; simp
  · right
    exact ⟨t.reverse, c, by simp, dropWhile_head_false jsWS l.reverse c t h⟩

theorem trimR_append_has_nonws (x v : List Char) (hv : ∃ c ∈ v, jsWS c = false) :
    trimR (x ++ v) = x ++ trimR v := by
  unfold trimR
  rw [List.reverse_append, List.dropWhile_append]
  rcases hd : v.reverse.dropWhile jsWS with _ | ⟨a, t⟩
  · exfalso
    obtain ⟨c, hc, hcw⟩ := hv
    have := List.dropWhile_eq_nil_iff.mp hd c (List.mem_reverse.mpr hc)
    rw [this] at hcw
    exact Bool.true_eq_false.mp hcw
  · simp

theorem collapseWS_nil : collapseWS [] = [] := rfl

theorem collapseWS_no_ws (l : List Char) (h : ∀ c ∈ l, jsWS c = false) :
    collapseWS l = l := by
  induction l with
  | nil => rfl
  | cons c r ih =>
    rw [collapseWS_cons, if_neg (by rw [h c (List.mem_cons_self c r)]; simp)]
    rw [ih (fun a ha => h a (List.mem_cons_of_mem c ha))]

theorem collapseWS_subset_fuel : ∀ (n : Nat) (l : List Char), l.length ≤ n →
    ∀ c ∈ collapseWS l, c ∈ l ∨ c = ' ' := by
  intro n
  induction n with
  | zero =>
    intro l hl c hc
    rw [List.length_eq_zero.mp (Nat.le_zero.mp hl)] at hc
    simp [collapseWS_nil] at hc
  | succ n ih =>
    intro l hl c hc
    cases l with
    | nil => simp [collapseWS_nil] at hc
    | cons a r =>
      rw [collapseWS_cons] at hc
      by_cases ha : jsWS a = true
      · rw [if_pos ha] at hc
        rcases List.mem_cons.mp hc with h | h
        · right; exact h
        · have hlen : (r.dropWhile jsWS).length ≤ n := by
            have := length_dropWhile_le jsWS r
            simp only [List.length_cons] at hl
            omega
          rcases ih _ hlen c h with h' | h'
          · left
            exact List.mem_cons_of_mem a
              ((List.dropWhile_sublist (l := r) (p := jsWS)).mem h')
          · right; exact h'
      · rw [if_neg ha] at hc
        rcases List.mem_cons.mp hc with h | h
        · left; rw [h]; exact List.mem_cons_self a r
        · have hlen : r.length ≤ n := by
            simp only [List.length_cons] at hl
            omega
          rcases ih _ hlen c h with h' | h'
          · left; exact List.mem_cons_of_mem a h'
          · right; exact h'

theorem collapseWS_subset (l : List Char) : ∀ c ∈ collapseWS l, c ∈ l ∨ c = ' ' :=
  collapseWS_subset_fuel l.length l le_rfl

theorem exists_collapseWS_append_fuel (s : List Char) (hs : s ≠ [])
    (hns : ∀ c ∈ s, jsWS c = false) :
    ∀ (n : Nat) (y : List Char), y.length ≤ n → ∃ z, collapseWS (y ++ s) = z ++ s := by
  intro n
  induction n with
  | zero =>
    intro y hy
    rw [List.length_eq_zero.mp (Nat.le_zero.mp hy)]
    exact ⟨[], by rw [List.nil_append, collapseWS_no_ws s hns]⟩
  | succ n ih =>
    intro y hy
    cases y with
    | nil => exact ⟨[], by rw [List.nil_append, collapseWS_no_ws s hns]⟩
    | cons c y' =>
      simp only [List.length_cons] at hy
      rw [List.cons_append, collapseWS_cons]
      by_cases hc : jsWS c = true
      · rw [if_pos hc]
        obtain ⟨a, t, rfl⟩ : ∃ a t, s = a :: t := by
          cases s with
          | nil => exact absurd rfl hs
          | cons a t => exact ⟨a, t, rfl⟩
        rw [dropWhile_append_of_head jsWS y' a t (hns a (List.mem_cons_self a t))]
        obtain ⟨z, hz⟩ := ih (y'.dropWhile jsWS)
          (le_trans (length_dropWhile_le _ _) (by omega))
        exact ⟨' ' :: z, by rw [hz]; rfl⟩
      · rw [if_neg hc]
        obtain ⟨z, hz⟩ := ih y' (by omega)
        exact ⟨c :: z, by rw [hz]; rfl⟩

theorem exists_collapseWS_append (s : List Char) (hs : s ≠ [])
    (hns : ∀ c ∈ s, jsWS c = false) (y : List Char) :
    ∃ z, collapseWS (y ++ s) = z ++ s :=
  exists_collapseWS_append_fuel s hs hns y.length y le_rfl

theorem collapseWS_idem_fuel : ∀ (n : Nat) (y : List Char), y.length ≤ n →
    collapseWS (collapseWS y) = collapseWS y := by
  intro n
  induction n with
  | zero =>
    intro y hy
    rw [List.length_eq_zero.mp (Nat.le_zero.mp hy)]
    rfl
  | succ n ih =>
    intro y hy
    cases y with
    | nil => rfl
    | cons c y' =>
      simp only [List.length_cons] at hy
      rw [collapseWS_cons]
      by_cases hc : jsWS c = true
      · rw [if_pos hc]
        have hws : jsWS ' ' = true := by decide
        rw [collapseWS_cons, if_pos hws]
        have hdrop : (collapseWS (y'.dropWhile jsWS)).dropWhile jsWS =
            collapseWS (y'.dropWhile jsWS) := by
          rcases hd : y'.dropWhile jsWS with _ | ⟨a, t⟩
          · rfl
          · have ha := dropWhile_head_false jsWS y' a t hd
            rw [collapseWS_cons, if_neg (by rw [ha]; simp)]
            simp [List.dropWhile, ha]
        rw [hdrop]
        rw [ih (y'.dropWhile jsWS) (le_trans (length_dropWhile_le _ _) (by omega))]
      · rw [if_neg hc]
        rw [collapseWS_cons, if_neg hc]
        rw [ih y' (by omega)]

theorem collapseWS_idem (y : List Char) : collapseWS (collapseWS y) = collapseWS y :=
  collapseWS_idem_fuel y.length y le_rfl

theorem collapseWS_ws_run_fuel (w₁ w₂ : List Char) (h₁ : w₁ ≠ []) (h₂ : w₂ ≠ [])
    (hw₁ : ∀ c ∈ w₁, jsWS c = true) (hw₂ : ∀ c ∈ w₂, jsWS c = true) :
    ∀ (n : Nat) (x : List Char), x.length ≤ n → ∀ (y : List Char),
      collapseWS (x ++ w₁ ++ y) = collapseWS (x ++ w₂ ++ y) := by
  have base : ∀ (w : List Char), w ≠ [] → (∀ c ∈ w, jsWS c = true) → ∀ y,
      collapseWS (w ++ y) = ' ' :: collapseWS (y.dropWhile jsWS) := by
    intro w hw hws y
    obtain ⟨a, t, rfl⟩ : ∃ a t, w = a :: t := by
      cases w with
      | nil => exact absurd rfl hw
      | cons a t => exact ⟨a, t, rfl⟩
    rw [List.cons_append, collapseWS_cons, if_pos (hws a (List.mem_cons_self a t))]
    rw [dropWhile_append_all jsWS t y (fun c hc => hws c (List.mem_cons_of_mem a hc))]
  intro n
  induction n with
  | zero =>
    intro x hx y
    rw [List.length_eq_zero.mp (Nat.le_zero.mp hx)]
    simp only [List.nil_append]
    rw [base w₁ h₁ hw₁ y, base w₂ h₂ hw₂ y]
  | succ n ih =>
    intro x hx y
    cases x with
    | nil =>
      simp only [List.nil_append]
      rw [base w₁ h₁ hw₁ y, base w₂ h₂ hw₂ y]
    | cons c x' =>
      simp only [List.length_cons] at hx
      simp only [List.cons_append]
      rw [collapseWS_cons, collapseWS_cons]
      by_cases hc : jsWS c = true
      · rw [if_pos hc, if_pos hc]
        by_cases hall : ∀ a ∈ x', jsWS a = true
        · rw [List.append_assoc, List.append_assoc]
          rw [dropWhile_append_all jsWS x' _ hall, dropWhile_append_all jsWS x' _ hall]
          rw [dropWhile_append_all jsWS w₁ y hw₁, dropWhile_append_all jsWS w₂ y hw₂]
        · push_neg at hall
          obtain ⟨a0, ha0m, ha0⟩ := hall
          have hne : x'.dropWhile jsWS ≠ [] := by
            intro hnil
            have := List.dropWhile_eq_nil_iff.mp hnil a0 ha0m
            rw [this] at ha0
            simp at ha0
          obtain ⟨a, t, hat⟩ : ∃ a t, x'.dropWhile jsWS = a :: t := by
            cases hd : x'.dropWhile jsWS with
            | nil => exact absurd hd hne
            | cons a t => exact ⟨a, t, rfl⟩
          have hsplit : ∀ (v : List Char), ((x' ++ v).dropWhile jsWS) =
              x'.dropWhile jsWS ++ v := by
            intro v
            rw [List.dropWhile_append, hat]
            simp
          rw [List.append_assoc, hsplit (w₁ ++ y), List.append_assoc, hsplit (w₂ ++ y)]
          rw [← List.append_assoc, ← List.append_assoc]
          have hlen : (x'.dropWhile jsWS).length ≤ n :=
            le_trans (length_dropWhile_le _ _) (by omega)
          rw [ih (x'.dropWhile jsWS) hlen y]
      · rw [if_neg hc, if_neg hc]
        rw [ih x' (by omega) y]

theorem collapseWS_ws_run (x w₁ w₂ y : List Char) (h₁ : w₁ ≠ []) (h₂ : w₂ ≠ [])
    (hw₁ : ∀ c ∈ w₁, jsWS c = true) (hw₂ : ∀ c ∈ w₂, jsWS c = true) :
    collapseWS (x ++ w₁ ++ y) = collapseWS (x ++ w₂ ++ y) :=
  collapseWS_ws_run_fuel w₁ w₂ h₁ h₂ hw₁ hw₂ x.length x le_rfl y

theorem cleanLine_nil : cleanLine [] = [] := rfl

theorem cleanLine_ws (w : List Char) (hw : ∀ c ∈ w, jsWS c = true) : cleanLine w = [] := by
  unfold cleanLine trimR
  rw [dropWhile_all jsWS w.reverse (by intro c hc; exact hw c (List.mem_reverse.mp hc))]
  rfl

theorem cleanLine_idem (l : List Char) : cleanLine (cleanLine l) = cleanLine l := by
  unfold cleanLine
  rcases trimR_cases l with h | ⟨z, c, h, hc⟩
  · rw [h, collapseWS_nil, trimR_nil, collapseWS_nil]
  · rw [h]
    obtain ⟨z', hz'⟩ := exists_collapseWS_append [c] (by simp)
      (by intro a ha; rw [List.mem_singleton.mp ha]; exact hc) z
    rw [hz', trimR_ends_nonws z' c hc, ← hz', collapseWS_idem]

theorem cleanLine_append_ws (l w : List Char) (hw : ∀ c ∈ w, jsWS c = true) :
    cleanLine (l ++ w) = cleanLine l := by
  unfold cleanLine
  rw [trimR_append_ws l w hw]

theorem cleanLine_ws_run (u v w₁ w₂ : List Char) (h₁ : w₁ ≠ []) (h₂ : w₂ ≠ [])
    (hw₁ : ∀ c ∈ w₁, jsWS c = true) (hw₂ : ∀ c ∈ w₂, jsWS c = true) :
    cleanLine (u ++ w₁ ++ v) = cleanLine (u ++ w₂ ++ v) := by
  by_cases hv : ∀ c ∈ v, jsWS c = true
  · have e₁ : u ++ w₁ ++ v = u ++ (w₁ ++ v) := by rw [List.append_assoc]
    have e₂ : u ++ w₂ ++ v = u ++ (w₂ ++ v) := by rw [List.append_assoc]
    rw [e₁, e₂]
    rw [cleanLine_append_ws u (w₁ ++ v) (by
      intro c hc
      rcases List.mem_append.mp hc with h | h
      · exact hw₁ c h
      · exact hv c h)]
    rw [cleanLine_append_ws u (w₂ ++ v) (by
      intro c hc
      rcases List.mem_append.mp hc with h | h
      · exact hw₂ c h
      · exact hv c h)]
  · push_neg at hv
    obtain ⟨d, hdm, hd⟩ := hv
    have hdne : jsWS d = false := by
      cases hjs : jsWS d with
      | false => rfl
      | true => exact absurd hjs hd
    have hex : ∃ c ∈ v, jsWS c = false := ⟨d, hdm, hdne⟩
    unfold cleanLine
    rw [trimR_append_has_nonws (u ++ w₁) v hex, trimR_append_has_nonws (u ++ w₂) v hex]
    rw [List.append_assoc u w₁ (trimR v), List.append_assoc u w₂ (trimR v),
      ← List.append_assoc u w₁ (trimR v), ← List.append_assoc u w₂ (trimR v)]
    exact collapseWS_ws_run u w₁ w₂ (trimR v) h₁ h₂ hw₁ hw₂

theorem normAux_no_cr (l : List Char) : ∀ b, '\r' ∉ normAux b l := by
  induction l with
  | nil => intro b; simp [normAux]
  | cons c r ih =>
    intro b
    simp only [normAux]
    by_cases hc : c = '\r'
    · rw [if_pos hc]
      intro hmem
      rcases List.mem_cons.mp hmem with h | h
      · exact absurd h.symm (by decide)
      · exact ih true h
    · rw [if_neg hc]
      by_cases hn : c = '\n'
      · rw [if_pos hn]
        cases b with
        | true =>
          simp only [if_true]
          exact ih false
        | false =>
          simp only [Bool.false_eq_true, if_false]
          intro hmem
          rcases List.mem_cons.mp hmem with h | h
          · exact absurd h.symm (by decide)
          · exact ih false h
      · rw [if_neg hn]
        intro hmem
        rcases List.mem_cons.mp hmem with h | h
        · exact hc h.symm
        · exact ih false h

theorem normAux_ws (l : List Char) (hl : ∀ c ∈ l, jsWS c = true) :
    ∀ b, ∀ c ∈ normAux b l, jsWS c = true := by
  induction l with
  | nil => intro b c hc; simp [normAux] at hc
  | cons a r ih =>
    have har : ∀ c ∈ r, jsWS c = true := fun c hc => hl c (List.mem_cons_of_mem a hc)
    intro b c hc
    simp only [normAux] at hc
    by_cases hcr : a = '\r'
    · rw [if_pos hcr] at hc
      rcases List.mem_cons.mp hc with h | h
      · rw [h]; decide
      · exact ih har true c h
    · rw [if_neg hcr] at hc
      by_cases hn : a = '\n'
      · rw [if_pos hn] at hc
        cases b with
        | true =>
          simp only [if_true] at hc
          exact ih har false c hc
        | false =>
          simp only [Bool.false_eq_true, if_false] at hc
          rcases List.mem_cons.mp hc with h | h
          · rw [h]; decide
          · exact ih har false c h
      · rw [if_neg hn] at hc
        rcases List.mem_cons.mp hc with h | h
        · rw [h]; exact hl a (List.mem_cons_self a r)
        · exact ih har false c h

/-- The state after `normAux` has consumed a list: `true` iff the next character,
if it is an LF, belongs to a CRLF pair (i.e. the last character consumed was CR). -/
def crPending (b : Bool) : List Char → Bool
  | [] => b
  | c :: r => crPending (decide (c = '\r')) r

theorem normAux_append_lf (x : List Char) : ∀ b,
    normAux b (x ++ ['\n']) =
      normAux b x ++ (if crPending b x then [] else ['\n']) := by
  induction x with
  | nil =>
    intro b
    cases b with
    | true => simp [normAux, crPending]
    | false => simp [normAux, crPending]
  | cons c x' ih =>
    intro b
    rw [List.cons_append]
    simp only [normAux, crPending]
    by_cases hcr : c = '\r'
    · subst hcr
      rw [ih true]
      simp
    · by_cases hn : c = '\n'
      · subst hn
        cases b
        · rw [ih false]
          simp
        · rw [ih false]
          simp
      · rw [ih false]
        simp [hcr, hn]

theorem splitCh_ne_nil (sep : Char) (l : List Char) : splitCh sep l ≠ [] := by
  induction l with
  | nil => simp [splitCh]
  | cons c r ih =>
    simp only [splitCh]
    by_cases hc : c = sep
    · rw [if_pos hc]; simp
    · rw [if_neg hc]
      rcases h : splitCh sep r with _ | ⟨h₀, t⟩
      · simp
      · simp

theorem splitCh_append_sep (sep : Char) (x : List Char) :
    splitCh sep (x ++ [sep]) = splitCh sep x ++ [[]] := by
  induction x with
  | nil => simp [splitCh]
  | cons c x' ih =>
    rw [List.cons_append]
    simp only [splitCh]
    by_cases hc : c = sep
    · rw [if_pos hc, if_pos hc, ih]
      rfl
    · rw [if_neg hc, if_neg hc, ih]
      rcases h : splitCh sep x' with _ | ⟨h₀, t⟩
      · exact absurd h (splitCh_ne_nil sep x')
      · rfl

theorem splitCh_no_sep (sep : Char) (x : List Char) (h : sep ∉ x) :
    splitCh sep x = [x] := by
  induction x with
  | nil => rfl
  | cons c x' ih =>
    simp only [splitCh]
    have hc : c ≠ sep := fun he => h (he ▸ List.mem_cons_self c x')
    rw [if_neg hc, ih (fun hm => h (List.mem_cons_of_mem c hm))]

theorem splitCh_sep_cons (sep : Char) (x z : List Char) (h : sep ∉ x) :
    splitCh sep (x ++ sep :: z) = x :: splitCh sep z := by
  induction x with
  | nil =>
    simp [splitCh]
  | cons c x' ih =>
    rw [List.cons_append]
    simp only [splitCh]
    have hc : c ≠ sep := fun he => h (he ▸ List.mem_cons_self c x')
    rw [if_neg hc, ih (fun hm => h (List.mem_cons_of_mem c hm))]

theorem intercalate_nil (sep : List Char) : List.intercalate sep [] = [] := by
  simp [List.intercalate]

theorem intercalate_singleton (sep x : List Char) : List.intercalate sep [x] = x := by
  simp [List.intercalate]

theorem intercalate_cons_cons (sep x y : List Char) (t : List (List Char)) :
    List.intercalate sep (x :: y :: t) = x ++ sep ++ List.intercalate sep (y :: t) := by
  simp [List.intercalate, List.intersperse]

theorem splitCh_intercalate (sep : Char) :
    ∀ (M : List (List Char)), M ≠ [] → (∀ p ∈ M, sep ∉ p) →
      splitCh sep (List.intercalate [sep] M) = M := by
  intro M
  induction M with
  | nil => intro h; exact absurd rfl h
  | cons x t ih =>
    intro _ hps
    cases t with
    | nil =>
      rw [intercalate_singleton]
      exact splitCh_no_sep sep x (hps x (List.mem_cons_self x []))
    | cons y t' =>
      rw [intercalate_cons_cons, List.append_assoc, List.singleton_append]
      rw [splitCh_sep_cons sep x _ (hps x (List.mem_cons_self x _))]
      rw [ih (by simp) (fun p hp => hps p (List.mem_cons_of_mem x hp))]

theorem mem_splitCh_subset (sep : Char) (l : List Char) :
    ∀ piece ∈ splitCh sep l, ∀ c ∈ piece, c ∈ l := by
  induction l with
  | nil =>
    intro piece hp c hc
    simp [splitCh] at hp
    rw [hp] at hc
    simp at hc
  | cons a r ih =>
    intro piece hp c hc
    simp only [splitCh] at hp
    by_cases ha : a = sep
    · rw [if_pos ha] at hp
      rcases List.mem_cons.mp hp with h | h
      · rw [h] at hc; simp at hc
      · exact List.mem_cons_of_mem a (ih piece h c hc)
    · rw [if_neg ha] at hp
      rcases hsp : splitCh sep r with _ | ⟨h₀, t⟩
      · exact absurd hsp (splitCh_ne_nil sep r)
      · rw [hsp] at hp
        rcases List.mem_cons.mp hp with h | h
        · rw [h] at hc
          rcases List.mem_cons.mp hc with h' | h'
          · rw [h']; exact List.mem_cons_self a r
          · exact List.mem_cons_of_mem a
              (ih h₀ (by rw [hsp]; exact List.mem_cons_self _ _) c h')
        · exact List.mem_cons_of_mem a
            (ih piece (by rw [hsp]; exact List.mem_cons_of_mem _ h) c hc)

theorem stripNLend_nil : stripNLend [] = [] := rfl

theorem stripNLend_append_lf (t : List Char) : stripNLend (t ++ ['\n']) = stripNLend t := by
  unfold stripNLend
  rw [List.reverse_append]
  simp [List.dropWhile]

theorem stripNLend_ends_other (t : List Char) (c : Char) (hc : c ≠ '\n') :
    stripNLend (t ++ [c]) = t ++ [c] := by
  unfold stripNLend
  rw [List.reverse_append]
  simp [List.dropWhile, hc]

theorem normAux_cons_cr (b : Bool) (r : List Char) :
    normAux b ('\r' :: r) = '\n' :: normAux true r := by
  simp [normAux]

theorem normAux_cons_lf_true (r : List Char) :
    normAux true ('\n' :: r) = normAux false r := by
  show (if '\n' = '\r' then _ else if '\n' = '\n' then if true then _ else _ else _) = _
  rw [if_neg (by decide), if_pos rfl, if_pos rfl]

theorem normAux_cons_lf_false (r : List Char) :
    normAux false ('\n' :: r) = '\n' :: normAux false r := by
  show (if '\n' = '\r' then _ else if '\n' = '\n' then if false then _ else _ else _) = _
  rw [if_neg (by decide), if_pos rfl, if_neg (by decide)]

theorem normAux_cons_other (b : Bool) (c : Char) (r : List Char)
    (h1 : c ≠ '\r') (h2 : c ≠ '\n') : normAux b (c :: r) = c :: normAux false r := by
  show (if c = '\r' then _ else if c = '\n' then _ else _) = _
  rw [if_neg h1, if_neg h2]

theorem normNL_emitCRLF (s : List Char) (h : '\r' ∉ s) : normNL (emitCRLF s) = s := by
  unfold normNL
  induction s with
  | nil => rfl
  | cons c r ih =>
    have hr : '\r' ∉ r := fun hm => h (List.mem_cons_of_mem c hm)
    have hcr : c ≠ '\r' := fun he => h (he ▸ List.mem_cons_self c r)
    simp only [emitCRLF]
    by_cases hn : c = '\n'
    · rw [if_pos hn, normAux_cons_cr, normAux_cons_lf_true, hn]
      exact congrArg _ (ih hr)
    · rw [if_neg hn, normAux_cons_other false c _ hcr hn]
      exact congrArg _ (ih hr)

/-- The trailing run of empty lines of a line list (what the `\n*$` replace removes,
seen at the level of logical lines). -/
def stripTrailEmpty (L : List (List Char)) : List (List Char) :=
  (L.reverse.dropWhile (fun l => l.isEmpty)).reverse

theorem eq_replicate_nil_of_all {α : Type} (l : List (List α)) (h : ∀ x ∈ l, x = []) :
    l = List.replicate l.length ([] : List α) := by
  induction l with
  | nil => rfl
  | cons a t ih =>
    have ha := h a (List.mem_cons_self a t)
    subst ha
    rw [List.length_cons, List.replicate_succ]
    exact congrArg (List.cons []) (ih (fun x hx => h x (List.mem_cons_of_mem _ hx)))

theorem stripTrailEmpty_decomp (L : List (List Char)) :
    ∃ m, L = stripTrailEmpty L ++ List.replicate m ([] : List Char) := by
  have hall : ∀ x ∈ L.reverse.takeWhile (fun l => l.isEmpty), x = ([] : List Char) := by
    intro x hx
    have := List.mem_takeWhile_imp hx
    simpa [List.isEmpty_iff] using this
  have h2 : (L.reverse.takeWhile (fun l => l.isEmpty)).reverse =
      List.replicate (L.reverse.takeWhile (fun l => l.isEmpty)).reverse.length
        ([] : List Char) :=
    eq_replicate_nil_of_all _ (fun x hx => hall x (List.mem_reverse.mp hx))
  refine ⟨(L.reverse.takeWhile (fun l => l.isEmpty)).reverse.length, ?_⟩
  conv_lhs => rw [← List.reverse_reverse L,
    ← List.takeWhile_append_dropWhile (fun l => l.isEmpty) L.reverse]
  rw [List.reverse_append]
  conv_lhs => rw [h2]
  rfl

theorem stripTrailEmpty_last (L : List (List Char)) :
    stripTrailEmpty L = [] ∨
      ∃ S' s, stripTrailEmpty L = S' ++ [s] ∧ s ≠ ([] : List Char) := by
  rcases h : L.reverse.dropWhile (fun l => l.isEmpty) with _ | ⟨a, t⟩
  · left
    unfold stripTrailEmpty
    rw [h]
    rfl
  · right
    refine ⟨t.reverse, a, ?_, ?_⟩
    · unfold stripTrailEmpty
      rw [h, List.reverse_cons]
    · have := dropWhile_head_false (fun l => l.isEmpty) L.reverse a t h
      simpa [List.isEmpty_iff] using this

theorem stripTrailEmpty_subset (L : List (List Char)) :
    ∀ x ∈ stripTrailEmpty L, x ∈ L := by
  intro x hx
  unfold stripTrailEmpty at hx
  rw [List.mem_reverse] at hx
  have := (List.dropWhile_sublist (l := L.reverse) (p := fun l => l.isEmpty)).mem hx
  exact List.mem_reverse.mp this

theorem intercalate_append_last (c : Char) (s : List Char) :
    ∀ (M : List (List Char)), M ≠ [] →
      List.intercalate [c] (M ++ [s]) = List.intercalate [c] M ++ c :: s := by
  intro M
  induction M with
  | nil => intro h; exact absurd rfl h
  | cons x t ih =>
    intro _
    cases t with
    | nil =>
      rw [intercalate_singleton]
      show List.intercalate [c] [x, s] = _
      rw [intercalate_cons_cons, intercalate_singleton]
      simp
    | cons y t' =>
      have : (x :: y :: t') ++ [s] = x :: ((y :: t') ++ [s]) := rfl
      rw [this, List.cons_append, intercalate_cons_cons, intercalate_cons_cons]
      rw [← List.cons_append, ih (by simp)]
      simp

/-- The canonical character stream of a list of cleaned lines: joined by LF with the
trailing LF-run removed (`join('\n').replace(/\n*$/, '\n')` before the final LF). -/
def coreL (M : List (List Char)) : List Char :=
  stripNLend (List.intercalate ['\n'] M)

theorem relaxedBodyL_eq (b : List Char) :
    relaxedBodyL b = emitCRLF (coreL (cleanedLines b) ++ ['\n']) := rfl

theorem coreL_append_empty (M : List (List Char)) :
    coreL (M ++ [[]]) = coreL M := by
  unfold coreL
  cases M with
  | nil =>
    rw [List.nil_append, intercalate_singleton, intercalate_nil]
  | cons x t =>
    rw [intercalate_append_last '\n' [] (x :: t) (by simp)]
    have : List.intercalate ['\n'] (x :: t) ++ '\n' :: [] =
        List.intercalate ['\n'] (x :: t) ++ ['\n'] := rfl
    rw [this, stripNLend_append_lf]

theorem coreL_append_replicate (S : List (List Char)) (m : Nat) :
    coreL (S ++ List.replicate m ([] : List Char)) = coreL S := by
  induction m with
  | zero => simp
  | succ n ih =>
    rw [List.replicate_succ', ← List.append_assoc, coreL_append_empty, ih]

theorem coreL_of_last_nonempty (S' : List (List Char)) (s : List Char) (hs : s ≠ [])
    (hnl : ∀ p ∈ S' ++ [s], '\n' ∉ p) :
    coreL (S' ++ [s]) = List.intercalate ['\n'] (S' ++ [s]) := by
  obtain ⟨z, d, rfl⟩ : ∃ z d, s = z ++ [d] := by
    rcases hrev : s.reverse with _ | ⟨d, z⟩
    · exfalso
      apply hs
      rw [← List.reverse_reverse s, hrev]
      rfl
    · exact ⟨z.reverse, d, by rw [← List.reverse_reverse s, hrev, List.reverse_cons]⟩
  have hd : d ≠ '\n' := by
    intro he
    exact hnl (z ++ [d]) (List.mem_append_right S' (List.mem_singleton_self _))
      (he ▸ List.mem_append_right z (List.mem_singleton_self _))
  unfold coreL
  cases S' with
  | nil =>
    rw [List.nil_append, intercalate_singleton]
    exact stripNLend_ends_other z d hd
  | cons x t =>
    rw [intercalate_append_last '\n' (z ++ [d]) (x :: t) (by simp)]
    have : List.intercalate ['\n'] (x :: t) ++ '\n' :: (z ++ [d]) =
        (List.intercalate ['\n'] (x :: t) ++ '\n' :: z) ++ [d] := by simp
    rw [this, stripNLend_ends_other _ d hd]

theorem stripNLend_subset (t : List Char) : ∀ c ∈ stripNLend t, c ∈ t := by
  intro c hc
  unfold stripNLend at hc
  rw [List.mem_reverse] at hc
  have := (List.dropWhile_sublist (l := t.reverse) (p := fun c => c = '\n')).mem hc
  exact List.mem_reverse.mp this

theorem mem_intercalate_sep (sep : Char) (c : Char) :
    ∀ (M : List (List Char)), c ∈ List.intercalate [sep] M →
      c = sep ∨ ∃ p ∈ M, c ∈ p := by
  intro M
  induction M with
  | nil =>
    intro h
    rw [intercalate_nil] at h
    simp at h
  | cons x t ih =>
    intro h
    cases t with
    | nil =>
      rw [intercalate_singleton] at h
      exact Or.inr ⟨x, List.mem_cons_self x [], h⟩
    | cons y t' =>
      rw [intercalate_cons_cons] at h
      rcases List.mem_append.mp h with h' | h'
      · rcases List.mem_append.mp h' with h'' | h''
        · exact Or.inr ⟨x, List.mem_cons_self x _, h''⟩
        · exact Or.inl (List.mem_singleton.mp h'')
      · rcases ih h' with h'' | ⟨p, hp, hcp⟩
        · exact Or.inl h''
        · exact Or.inr ⟨p, List.mem_cons_of_mem x hp, hcp⟩

theorem cleanedLines_no_nl_cr (b : List Char) :
    ∀ p ∈ cleanedLines b, '\n' ∉ p ∧ '\r' ∉ p := by
  intro p hp
  unfold cleanedLines at hp
  rcases List.mem_map.mp hp with ⟨q, hq, rfl⟩
  constructor
  · intro hmem
    unfold cleanLine at hmem
    rcases collapseWS_subset _ '\n' hmem with h | h
    · exact mem_splitCh_not_sep '\n' (normNL b) q hq (trimR_subset q '\n' h)
    · exact absurd h (by decide)
  · intro hmem
    unfold cleanLine at hmem
    rcases collapseWS_subset _ '\r' hmem with h | h
    · have hqmem := mem_splitCh_subset '\n' (normNL b) q hq '\r' (trimR_subset q '\r' h)
      exact normAux_no_cr b false hqmem
    · exact absurd h (by decide)

theorem cleanedLines_fixed (b : List Char) : ∀ p ∈ cleanedLines b, cleanLine p = p := by
  intro p hp
  unfold cleanedLines at hp
  rcases List.mem_map.mp hp with ⟨q, _, rfl⟩
  exact cleanLine_idem q

theorem coreL_no_cr (b : List Char) : '\r' ∉ coreL (cleanedLines b) := by
  intro hmem
  unfold coreL at hmem
  have h1 := stripNLend_subset _ '\r' hmem
  rcases mem_intercalate_sep '\n' '\r' (cleanedLines b) h1 with h | ⟨p, hp, hcp⟩
  · exact absurd h (by decide)
  · exact (cleanedLines_no_nl_cr b p hp).2 hcp

/-- The key structural fact: re-canonicalizing the output of `relaxedBody` yields the
original cleaned lines with trailing empty lines removed, plus one final empty line
(from the terminating LF) — in the non-degenerate case. -/
theorem cleanedLines_relaxedBodyL (b : List Char) (S' : List (List Char)) (s : List Char)
    (hEq : stripTrailEmpty (cleanedLines b) = S' ++ [s]) (hs : s ≠ []) :
    cleanedLines (relaxedBodyL b) = stripTrailEmpty (cleanedLines b) ++ [[]] := by
  obtain ⟨m, hdec⟩ := stripTrailEmpty_decomp (cleanedLines b)
  have hcore : coreL (cleanedLines b) = coreL (stripTrailEmpty (cleanedLines b)) := by
    conv_lhs => rw [hdec]
    exact coreL_append_replicate _ m
  have hnlS : ∀ p ∈ stripTrailEmpty (cleanedLines b), '\n' ∉ p := fun p hp =>
    (cleanedLines_no_nl_cr b p (stripTrailEmpty_subset _ p hp)).1
  have hfixS : ∀ p ∈ stripTrailEmpty (cleanedLines b), cleanLine p = p := fun p hp =>
    cleanedLines_fixed b p (stripTrailEmpty_subset _ p hp)
  have hnocr : '\r' ∉ coreL (cleanedLines b) ++ ['\n'] := by
    intro hmem
    rcases List.mem_append.mp hmem with h | h
    · exact coreL_no_cr b h
    · exact absurd (List.mem_singleton.mp h) (by decide)
  conv_lhs => unfold cleanedLines
  rw [relaxedBodyL_eq]
  unfold normNL
  show (splitCh '\n' (normNL (emitCRLF (coreL (cleanedLines b) ++ ['\n'])))).map cleanLine = _
  rw [normNL_emitCRLF _ hnocr]
  rw [hcore, hEq]
  rw [coreL_of_last_nonempty S' s hs (by rw [← hEq]; exact hnlS)]
  rw [splitCh_append_sep]
  rw [splitCh_intercalate '\n' (S' ++ [s]) (by simp) (by rw [← hEq]; exact hnlS)]
  rw [List.map_append, ← hEq]
  have hmapped : (stripTrailEmpty (cleanedLines b)).map cleanLine =
      stripTrailEmpty (cleanedLines b) := by
    conv_rhs => rw [← List.map_id (stripTrailEmpty (cleanedLines b))]
    exact List.map_congr_left (fun p hp => hfixS p hp)
  rw [hmapped]
  rfl

theorem relaxedBodyL_degenerate (b : List Char)
    (hnil : stripTrailEmpty (cleanedLines b) = []) : relaxedBodyL b = ['\r', '\n'] := by
  obtain ⟨m, hdec⟩ := stripTrailEmpty_decomp (cleanedLines b)
  rw [hnil, List.nil_append] at hdec
  rw [relaxedBodyL_eq]
  have hcore : coreL (cleanedLines b) = [] := by
    rw [hdec]
    have := coreL_append_replicate [] m
    simpa using this
  rw [hcore]
  rfl

theorem relaxedBodyL_idem (b : List Char) :
    relaxedBodyL (relaxedBodyL b) = relaxedBodyL b := by
  rcases stripTrailEmpty_last (cleanedLines b) with hnil | ⟨S', s, hEq, hs⟩
  · rw [relaxedBodyL_degenerate b hnil]
    decide
  · have hM1 := cleanedLines_relaxedBodyL b S' s hEq hs
    obtain ⟨m, hdec⟩ := stripTrailEmpty_decomp (cleanedLines b)
    have hcore : coreL (stripTrailEmpty (cleanedLines b)) = coreL (cleanedLines b) := by
      conv_rhs => rw [hdec]
      exact (coreL_append_replicate _ m).symm
    rw [relaxedBodyL_eq (relaxedBodyL b), hM1, coreL_append_empty, hcore,
      ← relaxedBodyL_eq]

theorem relaxedBodyL_append_lf (b : List Char) :
    relaxedBodyL (b ++ ['\n']) = relaxedBodyL b := by
  rw [relaxedBodyL_eq, relaxedBodyL_eq]
  have hsplit : cleanedLines (b ++ ['\n']) =
      if crPending false b then cleanedLines b else cleanedLines b ++ [[]] := by
    unfold cleanedLines normNL
    rw [normAux_append_lf b false]
    cases hcp : crPending false b
    · simp only [Bool.false_eq_true, if_false]
      rw [splitCh_append_sep, List.map_append]
      rfl
    · simp
  rw [hsplit]
  cases hcp : crPending false b
  · simp only [Bool.false_eq_true, if_false]
    rw [coreL_append_empty]
  · simp

theorem relaxedBodyL_ws (b : List Char) (h : ∀ c ∈ b, jsWS c = true) :
    relaxedBodyL b = ['\r', '\n'] := by
  have hall : ∀ p ∈ cleanedLines b, p = ([] : List Char) := by
    intro p hp
    unfold cleanedLines at hp
    rcases List.mem_map.mp hp with ⟨q, hq, rfl⟩
    apply cleanLine_ws
    intro c hc
    exact normAux_ws b h false c (mem_splitCh_subset '\n' (normNL b) q hq c hc)
  rw [relaxedBodyL_eq]
  have hcore : coreL (cleanedLines b) = [] := by
    rw [eq_replicate_nil_of_all _ hall]
    have := coreL_append_replicate [] (cleanedLines b).length
    simpa using this
  rw [hcore]
  rfl

/-! ## Claims C2 and C6 -/

/-- C2: `relaxedBody` is idempotent, and inputs differing only in (a) extra trailing
empty lines, (b) choice of CR / LF / CRLF line endings, (c) trailing whitespace on
lines, or (d) lengths of internal whitespace runs canonicalize identically.
(b) is stated as: equal newline-normalizations give equal canonical bodies; (a) as
invariance under appending a final newline; (c) and (d) as the per-line invariances of
`cleanLine` together with the fact that `relaxedBody` depends on its input only through
the cleaned logical lines. -/
theorem C2_relaxedBody_invariance :
    (∀ b : String, relaxedBody (relaxedBody b) = relaxedBody b) ∧
      (∀ b : String, relaxedBody (b ++ "\n") = relaxedBody b) ∧
      (∀ b₁ b₂ : String, normNL b₁.data = normNL b₂.data →
        relaxedBody b₁ = relaxedBody b₂) ∧
      (∀ b₁ b₂ : String, cleanedLines b₁.data = cleanedLines b₂.data →
        relaxedBody b₁ = relaxedBody b₂) ∧
      (∀ l w : List Char, (∀ c ∈ w, jsWS c = true) → cleanLine (l ++ w) = cleanLine l) ∧
      (∀ u v w₁ w₂ : List Char, w₁ ≠ [] → w₂ ≠ [] → (∀ c ∈ w₁, jsWS c = true) →
        (∀ c ∈ w₂, jsWS c = true) →
        cleanLine (u ++ w₁ ++ v) = cleanLine (u ++ w₂ ++ v)) := by
  refine ⟨?_, ?_, ?_, ?_, cleanLine_append_ws, cleanLine_ws_run⟩
  · intro b
    show String.mk _ = String.mk _
    exact congrArg String.mk (relaxedBodyL_idem b.data)
  · intro b
    show String.mk (relaxedBodyL (b.data ++ ['\n'])) = String.mk (relaxedBodyL b.data)
    exact congrArg String.mk (relaxedBodyL_append_lf b.data)
  · intro b₁ b₂ h
    show String.mk _ = String.mk _
    apply congrArg String.mk
    rw [relaxedBodyL_eq, relaxedBodyL_eq]
    unfold cleanedLines
    rw [h]
  · intro b₁ b₂ h
    show String.mk _ = String.mk _
    apply congrArg String.mk
    rw [relaxedBodyL_eq, relaxedBodyL_eq, h]

/-- C2 (witness): the invariances applied at concrete inputs. -/
theorem C2_relaxedBody_invariance_witness :
    relaxedBody "a\r\nb" = relaxedBody "a\nb" ∧
      cleanLine ("a".data ++ " \t".data) = cleanLine "a".data ∧
      cleanLine ("a".data ++ "  ".data ++ "b".data) =
        cleanLine ("a".data ++ "\t".data ++ "b".data) :=
  ⟨C2_relaxedBody_invariance.2.2.1 "a\r\nb" "a\nb" (by decide),
   C2_relaxedBody_invariance.2.2.2.2.1 "a".data " \t".data (by decide),
   C2_relaxedBody_invariance.2.2.2.2.2 "a".data "b".data "  ".data "\t".data
     (by decide) (by decide) (by decide) (by decide)⟩

/-- C6: an empty or whitespace-only body canonicalizes to the single CRLF, and the
concrete S1 example canonicalizes as the claim states. -/
theorem C6_relaxedBody_degenerate_and_example :
    (∀ b : String, (∀ c ∈ b.data, jsWS c = true) → relaxedBody b = "\r\n") ∧
      relaxedBody "" = "\r\n" ∧
      relaxedBody "Hello  world  \r\n\r\n\r\n" = "Hello world\r\n" := by
  refine ⟨?_, by decide, by decide⟩
  intro b hb
  show String.mk _ = String.mk _
  exact congrArg String.mk (relaxedBodyL_ws b.data hb)

/-- C6 (witness): a concrete whitespace-only body canonicalizes to CRLF. -/
theorem C6_relaxedBody_degenerate_witness : relaxedBody " \t \r\n " = "\r\n" :=
  C6_relaxedBody_degenerate_and_example.1 " \t \r\n " (by decide)

/-! ## postman.ts: message assembly, MX resolution, recipient grouping, SMTP data phase -/

/-- An attachment of the envelope (`EnvelopeAttachment`).  The file bytes are read
from disk by `encodeAttachment` and Base64-converted; that external read is modelled
by carrying the Base64 text in the record. -/
structure EnvelopeAttachment where
  filename : String
  contentType : String
  base64Content : String
deriving DecidableEq, Repr

/-- `SendEnvelope` (postman.ts).  `to`, `cc` and `bcc` accept a single string or an
array in the source; a lone string behaves exactly like a one-element array, so they
are modelled as lists, with `cc`/`bcc` optional.  `from` and `to` are Lean keywords,
hence `fromAddr` and `toAddrs`. -/
structure SendEnvelope where
  fromAddr : String
  toAddrs : List String
  cc : Option (List String)
  bcc : Option (List String)
  subject : String
  body : String
  html : Option String
  attachments : List EnvelopeAttachment
deriving DecidableEq, Repr

/-- `formatAddresses` (postman.ts): an array is joined with ", "; a lone string is
itself (the one-element-list case). -/
def formatAddresses (addresses : List String) : String :=
  String.intercalate ", " addresses

/-- `encodeAttachment` (postman.ts): the MIME part for one attachment.  The source
template literal uses bare LF newlines, reproduced faithfully. -/
def encodeAttachment (attachment : EnvelopeAttachment) (boundary : String) : String :=
  "\n--" ++ boundary ++ "\nContent-Type: " ++ attachment.contentType ++ "; name=\"" ++
    attachment.filename ++
    "\"\nContent-Transfer-Encoding: base64\nContent-Disposition: attachment; filename=\"" ++
    attachment.filename ++ "\"\n\n" ++ attachment.base64Content ++ "\n"

/-- `createEmailMessage` (postman.ts lines 375-434).  The random Message-ID and the two
random boundaries are parameters (CSPRNG and clock are external); `dkimSigner`
abstracts the `dkimSigned` wrapper, which prepends the DKIM-Signature header plus CRLF
to the message. -/
def createEmailMessage (messageId mixedBoundary altBoundary : String)
    (e : SendEnvelope) (dkimSigner : Option (String → String)) : String :=
  let message :=
    "Message-ID: " ++ messageId ++ "\r\n" ++
    "From: " ++ e.fromAddr ++ "\r\n" ++
    "To: " ++ formatAddresses e.toAddrs ++ "\r\n" ++
    (match e.cc with
     | some cc => "CC: " ++ formatAddresses cc ++ "\r\n"
     | none => "") ++
    (match e.bcc with
     | some bcc => "BCC: " ++ formatAddresses bcc ++ "\r\n"
     | none => "") ++
    "Subject: " ++ e.subject ++ "\r\n" ++
    "MIME-Version: 1.0\r\n" ++
    "Content-Type: multipart/mixed; boundary=\"" ++ mixedBoundary ++ "\"\r\n\r\n" ++
    "--" ++ mixedBoundary ++ "\r\n" ++
    "Content-Type: multipart/alternative; boundary=\"" ++ altBoundary ++ "\"\r\n\r\n" ++
    "--" ++ altBoundary ++ "\r\n" ++
    "Content-Type: text/plain; charset=\"utf-8\"\r\n\r\n" ++
    e.body ++ "\r\n" ++
    (match e.html with
     | some h =>
       "--" ++ altBoundary ++ "\r\n" ++
       "Content-Type: text/html; charset=\"utf-8\"\r\n\r\n" ++ h ++ "\r\n"
     | none => "") ++
    "--" ++ altBoundary ++ "--\r\n" ++
    String.join (e.attachments.map (fun a => encodeAttachment a mixedBoundary)) ++
    "--" ++ mixedBoundary ++ "--\r\n"
  match dkimSigner with
  | some sign => sign message ++ "\r\n" ++ message
  | none => message

/-- The RFC 5322 header section of a message: everything before the first blank line
(the first CRLF CRLF). -/
def upToBlankLine : List Char → List Char
  | '\r' :: '\n' :: '\r' :: '\n' :: _ => []
  | c :: r => c :: upToBlankLine r
  | [] => []

/-- The header section of a message payload. -/
def headerSection (m : String) : String := ⟨upToBlankLine m.data⟩

/-- Does `hay` start with `needle`? -/
def startsWithL : List Char → List Char → Bool
  | [], _ => true
  | _ :: _, [] => false
  | a :: as, b :: bs => a = b && startsWithL as bs

/-- Does `needle` occur as a contiguous substring of the list? -/
def containsSub (needle : List Char) : List Char → Bool
  | [] => needle.isEmpty
  | c :: r => startsWithL needle (c :: r) || containsSub needle r

/-- Substring occurrence on strings. -/
def containsStr (needle hay : String) : Bool := containsSub needle.data hay.data

/-- The bytes written to the TLS socket on the `354` response (`Postman.send`,
lines 566-570): the assembled message followed by the terminator line, with NO
dot-stuffing transformation applied to the payload. -/
def dataPhaseWrites (message : String) : String := message ++ ".\r\n"

/-- The `RCPT TO` commands issued for one recipient group (`Postman.send` lines
559-561), in recipient order. -/
def rcptCommands (recipients : List String) : List String :=
  recipients.map (fun r => "RCPT TO:<" ++ r ++ ">\r\n")

/-- JS `recipient.split('@')[1]` as used by `getRecipientsByMx` for grouping.  When
the address has no `@`, the JS index expression is `undefined` and the object key it
is used as becomes the string "undefined"; this coercion is reproduced. -/
def domainOf (r : String) : String :=
  match splitCh '@' r.data with
  | _ :: d :: _ => ⟨d⟩
  | _ => "undefined"

/-- The own property names of `Object.prototype`, which the plain `domainMap` object
literal inherits: for these domains `!domainMap[domain]` is false even when no own
key exists, because the read returns the inherited member. -/
def protoProp (k : String) : Bool :=
  decide (k = "constructor" ∨ k = "hasOwnProperty" ∨ k = "isPrototypeOf" ∨
    k = "propertyIsEnumerable" ∨ k = "toLocaleString" ∨ k = "toString" ∨
    k = "valueOf" ∨ k = "__defineGetter__" ∨ k = "__defineSetter__" ∨
    k = "__lookupGetter__" ∨ k = "__lookupSetter__" ∨ k = "__proto__")

/-- The grouping loop body of `getRecipientsByMx`
(`if (!domainMap[domain]) domainMap[domain] = []; domainMap[domain].push(recipient)`):
an existing own domain key gets the recipient appended; otherwise, when the domain
names an `Object.prototype` property, the inherited read is truthy, the
initialization is skipped, and `.push` on the inherited non-array value throws a
`TypeError`, modelled as `none`; else a new key is appended (JS objects preserve
insertion order for non-integer string keys). -/
def upsertRecipient (m : List (String × List String)) (d : String) (r : String) :
    Option (List (String × List String)) :=
  match m with
  | [] => if protoProp d then none else some [(d, [r])]
  | (k, rs) :: t =>
    if k = d then some ((k, rs ++ [r]) :: t)
    else (upsertRecipient t d r).map (fun t2 => (k, rs) :: t2)

/-- The error-free normal form of the insertion, used to state the characterization:
`upsertRecipient` agrees with it whenever the domain is off the prototype chain. -/
def upsertOwn (m : List (String × List String)) (d : String) (r : String) :
    List (String × List String) :=
  match m with
  | [] => [(d, [r])]
  | (k, rs) :: t =>
    if k = d then (k, rs ++ [r]) :: t else (k, rs) :: upsertOwn t d r

/-- The `domainMap` of `getRecipientsByMx`: recipients grouped by domain in first
occurrence order, or `none` when the loop throws on a prototype-named domain. -/
def domainMap (recipients : List String) : Option (List (String × List String)) :=
  recipients.foldlM (fun m r => upsertRecipient m (domainOf r) r) []

/-- The grouping in its error-free normal form. -/
def domainGroups (recipients : List String) : List (String × List String) :=
  recipients.foldl (fun m r => upsertOwn m (domainOf r) r) []

/-- `RecipientGroup` (postman.ts). -/
structure RecipientGroup where
  mxHost : String
  recipients : List String
deriving DecidableEq, Repr

/-- `getRecipientsByMx` (postman.ts lines 441-485): combine to, cc and bcc in that
order, group by the substring after `@`, and resolve one MX host per domain; the
grouping `TypeError` propagates as `none`.  The MX resolution is external and passed
as `resolveMx`. -/
def getRecipientsByMx (resolveMx : String → String) (toR ccR bccR : List String) :
    Option (List RecipientGroup) :=
  (domainMap (toR ++ ccR ++ bccR)).map
    (fun m => m.map (fun g => ⟨resolveMx g.1, g.2⟩))

example : domainMap ["a@x.com", "b@y.com", "c@x.com"] =
    some [("x.com", ["a@x.com", "c@x.com"]), ("y.com", ["b@y.com"])] := by decide
example : domainMap ["a@x.com", "c@constructor"] = none := by decide
example : domainMap ["a@toString"] = none := by decide

/-! ## Claims C4 and C5 -/

set_option maxRecDepth 100000

/-- C4 (code bug): `createEmailMessage` writes a `BCC:` header carrying the bcc
addresses into the message, so a bcc recipient's address DOES appear in the header
section of the DATA payload, although it also correctly receives its `RCPT TO`
command in its group's SMTP session. -/
theorem C4_bcc_header_leak :
    containsStr "c@ex2.com"
        (headerSection
          (createEmailMessage "<mid@ex1.com>" "--boundary_MB" "--boundary_AB"
            ⟨"a@ex1.com", ["b@ex1.com"], none, some ["c@ex2.com"], "Sub", "Hello",
              none, []⟩ none)) = true ∧
      containsStr "BCC: c@ex2.com\r\n"
        (createEmailMessage "<mid@ex1.com>" "--boundary_MB" "--boundary_AB"
          ⟨"a@ex1.com", ["b@ex1.com"], none, some ["c@ex2.com"], "Sub", "Hello",
            none, []⟩ none) = true ∧
      (∃ gs, getRecipientsByMx (fun d => "mx." ++ d) ["b@ex1.com"] [] ["c@ex2.com"] =
          some gs ∧
        ∃ g ∈ gs, "c@ex2.com" ∈ g.recipients ∧
          "RCPT TO:<c@ex2.com>\r\n" ∈ rcptCommands g.recipients) := by
  refine ⟨by decide, by decide,
    [⟨"mx.ex1.com", ["b@ex1.com"]⟩, ⟨"mx.ex2.com", ["c@ex2.com"]⟩], by decide,
    ⟨"mx.ex2.com", ["c@ex2.com"]⟩, by decide, by decide, by decide⟩

/-- C5 (code bug): on the `354` response the payload is written verbatim followed by
the terminator; a body line beginning with `.` is NOT dot-stuffed — the wire carries
`\r\n.hello\r\n` unchanged and no doubled-dot form. -/
theorem C5_no_dot_stuffing :
    dataPhaseWrites
        (createEmailMessage "<mid@ex1.com>" "--boundary_MB" "--boundary_AB"
          ⟨"a@ex1.com", ["b@ex1.com"], none, none, "Sub", "x\r\n.hello", none, []⟩
          none) =
      createEmailMessage "<mid@ex1.com>" "--boundary_MB" "--boundary_AB"
          ⟨"a@ex1.com", ["b@ex1.com"], none, none, "Sub", "x\r\n.hello", none, []⟩
          none ++ ".\r\n" ∧
      containsStr "\r\n.hello\r\n"
        (dataPhaseWrites
          (createEmailMessage "<mid@ex1.com>" "--boundary_MB" "--boundary_AB"
            ⟨"a@ex1.com", ["b@ex1.com"], none, none, "Sub", "x\r\n.hello", none, []⟩
            none)) = true ∧
      containsStr "\r\n..hello"
        (dataPhaseWrites
          (createEmailMessage "<mid@ex1.com>" "--boundary_MB" "--boundary_AB"
            ⟨"a@ex1.com", ["b@ex1.com"], none, none, "Sub", "x\r\n.hello", none, []⟩
            none)) = false := by
  exact ⟨rfl, by decide, by decide⟩

/-! ## MX resolution (`getMailExchange`) and claim C9 -/

/-- A DNS MX record as returned by `dns.resolveMx`. -/
structure MxRecord where
  priority : Nat
  exchange : String
deriving DecidableEq, Repr

/-- Stable insertion by ascending priority, modelling the comparator
`(a, b) => a.priority - b.priority` of `addresses.sort`. -/
def insertByPriority (r : MxRecord) : List MxRecord → List MxRecord
  | [] => [r]
  | x :: xs =>
    if x.priority ≤ r.priority then x :: insertByPriority r xs else r :: x :: xs

/-- The sorted MX list (ascending priority; a stable sort, as ES2019 `sort`). -/
def sortByPriority (l : List MxRecord) : List MxRecord := l.foldr insertByPriority []

/-- `getMailExchange` (postman.ts lines 330-353).  The asynchronous race is reduced to
its outcome: `timedOut` says whether the lookup timer fired before the DNS callback,
and `dnsResult` is the callback's error-or-records outcome (a missing or empty list
rejects).  On success the exchange of the first record after sorting by ascending
priority is resolved. -/
def getMailExchange (domain : String) (timeout : Nat) (timedOut : Bool)
    (dnsResult : Except String (List MxRecord)) : Except String String :=
  if timedOut then
    Except.error ("DNS resolution timed out after " ++ toString timeout ++ "ms")
  else
    match dnsResult with
    | Except.error msg =>
      Except.error ("Failed to resolve MX records for domain " ++ domain ++ ": " ++ msg)
    | Except.ok addrs =>
      if addrs.isEmpty then
        Except.error ("No MX records found for domain " ++ domain)
      else
        match sortByPriority addrs with
        | [] => Except.error ("No MX records found for domain " ++ domain)
        | r :: _ => Except.ok r.exchange

theorem mem_insertByPriority (r a : MxRecord) (l : List MxRecord) :
    a ∈ insertByPriority r l ↔ a = r ∨ a ∈ l := by
  induction l with
  | nil => simp [insertByPriority]
  | cons x xs ih =>
    simp only [insertByPriority]
    split
    · rw [List.mem_cons, ih, List.mem_cons]
      tauto
    · rw [List.mem_cons, List.mem_cons]

theorem sortByPriority_mem (l : List MxRecord) (a : MxRecord) :
    a ∈ sortByPriority l ↔ a ∈ l := by
  induction l with
  | nil => simp [sortByPriority]
  | cons x xs ih =>
    show a ∈ insertByPriority x (sortByPriority xs) ↔ _
    rw [mem_insertByPriority, ih]
    simp

theorem sortByPriority_eq_nil (l : List MxRecord) :
    sortByPriority l = [] ↔ l = [] := by
  constructor
  · intro h
    cases l with
    | nil => rfl
    | cons x xs =>
      exfalso
      have : x ∈ sortByPriority (x :: xs) := (sortByPriority_mem _ x).mpr (by simp)
      rw [h] at this
      simp at this
  · intro h; rw [h]; rfl

theorem sortByPriority_head_min (l : List MxRecord) (r : MxRecord) (t : List MxRecord)
    (h : sortByPriority l = r :: t) :
    r ∈ l ∧ ∀ x ∈ l, r.priority ≤ x.priority := by
  induction l generalizing r t with
  | nil => simp [sortByPriority] at h
  | cons y ys ih =>
    have hstep : sortByPriority (y :: ys) = insertByPriority y (sortByPriority ys) := rfl
    rw [hstep] at h
    rcases hys : sortByPriority ys with _ | ⟨s0, st⟩
    · have hys' : ys = [] := (sortByPriority_eq_nil ys).mp hys
      rw [hys] at h
      simp only [insertByPriority] at h
      injection h with h1 h2
      subst h1
      subst hys'
      exact ⟨by simp, by intro x hx; simp at hx; rw [hx]⟩
    · obtain ⟨hs0mem, hs0min⟩ := ih s0 st hys
      rw [hys] at h
      simp only [insertByPriority] at h
      by_cases hcmp : s0.priority ≤ y.priority
      · rw [if_pos hcmp] at h
        injection h with h1 h2
        subst h1
        refine ⟨List.mem_cons_of_mem y hs0mem, ?_⟩
        intro x hx
        rcases List.mem_cons.mp hx with hx | hx
        · rw [hx]; exact hcmp
        · exact hs0min x hx
      · rw [if_neg hcmp] at h
        injection h with h1 h2
        subst h1
        refine ⟨List.mem_cons_self y ys, ?_⟩
        intro x hx
        rcases List.mem_cons.mp hx with hx | hx
        · rw [hx]
        · have hy : y.priority ≤ s0.priority := by omega
          exact le_trans hy (hs0min x hx)

/-- C9: `getMailExchange` resolves the exchange of a minimal-preference MX record when
the DNS answer is a non-empty list and no timeout fired, and it rejects exactly when
the timer fired first, the DNS lookup errored, or the MX list is empty. -/
theorem C9_getMailExchange_min_or_error (domain : String) (timeout : Nat) (t : Bool)
    (d : Except String (List MxRecord)) :
    ((∃ e, getMailExchange domain timeout t d = Except.error e) ↔
      (t = true ∨ (∃ e, d = Except.error e) ∨ d = Except.ok [])) ∧
      (∀ addrs, t = false → d = Except.ok addrs → addrs ≠ [] →
        ∃ r ∈ addrs, getMailExchange domain timeout t d = Except.ok r.exchange ∧
          ∀ x ∈ addrs, r.priority ≤ x.priority) := by
  constructor
  · cases t with
    | true => simp [getMailExchange]
    | false =>
      cases d with
      | error msg => simp [getMailExchange]
      | ok addrs =>
        cases haddrs : addrs with
        | nil => simp [getMailExchange]
        | cons a as =>
          simp only [getMailExchange, Bool.false_eq_true, if_false, List.isEmpty_cons,
            if_neg]
          rcases hsort : sortByPriority (a :: as) with _ | ⟨r, rt⟩
          · exact absurd ((sortByPriority_eq_nil _).mp hsort) (by simp)
          · simp [hsort]
  · intro addrs ht hd haddrs
    subst ht
    subst hd
    rcases hsort : sortByPriority addrs with _ | ⟨r, rt⟩
    · exact absurd ((sortByPriority_eq_nil _).mp hsort) haddrs
    · obtain ⟨hmem, hmin⟩ := sortByPriority_head_min addrs r rt hsort
      refine ⟨r, hmem, ?_, hmin⟩
      simp only [getMailExchange, Bool.false_eq_true, if_false]
      rw [if_neg (by simpa [List.isEmpty_iff] using haddrs), hsort]

/-- C9 (witness): with two concrete records the lower-preference exchange is chosen. -/
theorem C9_getMailExchange_witness :
    ∃ r ∈ [MxRecord.mk 20 "mx2.example.com", MxRecord.mk 10 "mx1.example.com"],
      getMailExchange "example.com" 10000 false
          (Except.ok [MxRecord.mk 20 "mx2.example.com", MxRecord.mk 10 "mx1.example.com"]) =
        Except.ok r.exchange ∧
        ∀ x ∈ [MxRecord.mk 20 "mx2.example.com", MxRecord.mk 10 "mx1.example.com"],
          r.priority ≤ x.priority :=
  (C9_getMailExchange_min_or_error "example.com" 10000 false
    (Except.ok [MxRecord.mk 20 "mx2.example.com", MxRecord.mk 10 "mx1.example.com"])).2
    [MxRecord.mk 20 "mx2.example.com", MxRecord.mk 10 "mx1.example.com"]
    rfl rfl (by decide)

/-! ## Recipient grouping invariants and claim C10 -/

/-- Association lookup on the `domainMap` object. -/
def assocG : List (String × List String) → String → Option (List String)
  | [], _ => none
  | (k, v) :: t, key => if k = key then some v else assocG t key

theorem assocG_upsert (m : List (String × List String)) (d r : String) (k : String) :
    assocG (upsertOwn m d r) k =
      if k = d then some ((assocG m d).getD [] ++ [r]) else assocG m k := by
  induction m with
  | nil =>
    by_cases hk : k = d
    · subst hk
      simp [upsertOwn, assocG]
    · have hdk : ¬ d = k := fun h => hk h.symm
      simp [upsertOwn, assocG, hk, hdk]
  | cons g t ih =>
    obtain ⟨k0, rs0⟩ := g
    by_cases h0 : k0 = d
    · subst h0
      by_cases hk : k0 = k
      · subst hk
        simp [upsertOwn, assocG]
      · have hk' : ¬ k = k0 := fun h => hk h.symm
        simp [upsertOwn, assocG, hk, hk']
    · by_cases hk : k0 = k
      · subst hk
        have hkd : ¬ k0 = d := h0
        simp [upsertOwn, assocG, h0, hkd]
      · by_cases hkd : k = d
        · subst hkd
          simp [upsertOwn, assocG, h0, hk, ih]
        · simp [upsertOwn, assocG, h0, hk, ih, hkd]

theorem upsert_keys (m : List (String × List String)) (d r : String) :
    (upsertOwn m d r).map Prod.fst =
      if d ∈ m.map Prod.fst then m.map Prod.fst else m.map Prod.fst ++ [d] := by
  induction m with
  | nil => simp [upsertOwn]
  | cons g t ih =>
    obtain ⟨k0, rs0⟩ := g
    simp only [upsertOwn]
    by_cases h0 : k0 = d
    · subst h0
      rw [if_pos rfl]
      simp
    · rw [if_neg h0]
      simp only [List.map_cons, ih]
      by_cases hd : d ∈ t.map Prod.fst
      · rw [if_pos hd, if_pos (List.mem_cons_of_mem _ hd)]
      · rw [if_neg hd, if_neg (by
          intro hmem
          rcases List.mem_cons.mp hmem with h | h
          · exact h0 h.symm
          · exact hd h)]
        rfl

theorem assocG_mem (m : List (String × List String)) (k : String) (v : List String)
    (h : assocG m k = some v) : (k, v) ∈ m := by
  induction m with
  | nil => simp [assocG] at h
  | cons g t ih =>
    obtain ⟨k0, v0⟩ := g
    simp only [assocG] at h
    by_cases h0 : k0 = k
    · rw [if_pos h0] at h
      injection h with h
      subst h0
      rw [← h]
      exact List.mem_cons_self _ _
    · rw [if_neg h0] at h
      exact List.mem_cons_of_mem _ (ih h)

theorem mem_assocG (m : List (String × List String)) (k : String) (v : List String)
    (hnd : (m.map Prod.fst).Nodup) (h : (k, v) ∈ m) : assocG m k = some v := by
  induction m with
  | nil => simp at h
  | cons g t ih =>
    obtain ⟨k0, v0⟩ := g
    simp only [List.map_cons, List.nodup_cons] at hnd
    simp only [assocG]
    rcases List.mem_cons.mp h with h | h
    · injection h with h1 h2
      rw [if_pos h1.symm, h2]
    · have hk0 : k0 ≠ k := by
        intro he
        apply hnd.1
        have : k ∈ t.map Prod.fst := List.mem_map.mpr ⟨(k, v), h, rfl⟩
        rw [he]
        exact this
      rw [if_neg hk0]
      exact ih hnd.2 h

theorem domainGroups_append_singleton (rs : List String) (r : String) :
    domainGroups (rs ++ [r]) = upsertOwn (domainGroups rs) (domainOf r) r := by
  unfold domainGroups
  rw [List.foldl_append]
  rfl

/-- Full characterization of the error-free grouping: its keys are pairwise
distinct, and the entry of a domain is exactly the subsequence of recipients with
that domain (absent iff empty). -/
theorem domainGroups_char (all : List String) :
    ((domainGroups all).map Prod.fst).Nodup ∧
      ∀ d, assocG (domainGroups all) d =
        if all.filter (fun r => decide (domainOf r = d)) = [] then none
        else some (all.filter (fun r => decide (domainOf r = d))) := by
  induction all using List.reverseRecOn with
  | nil => exact ⟨by simp [domainGroups], fun d => by simp [domainGroups, assocG]⟩
  | append_singleton rs r ih =>
    obtain ⟨hnd, hlook⟩ := ih
    have hkeys := upsert_keys (domainGroups rs) (domainOf r) r
    constructor
    · rw [domainGroups_append_singleton, hkeys]
      by_cases hmem : domainOf r ∈ (domainGroups rs).map Prod.fst
      · rw [if_pos hmem]; exact hnd
      · rw [if_neg hmem]
        rw [List.nodup_append]
        exact ⟨hnd, by simp, by simpa [List.disjoint_singleton] using hmem⟩
    · intro d
      rw [domainGroups_append_singleton, assocG_upsert, List.filter_append]
      by_cases hd : d = domainOf r
      · subst hd
        rw [if_pos rfl]
        have hfr : List.filter (fun x => decide (domainOf x = domainOf r)) [r] = [r] := by
          simp [List.filter]
        rw [hfr, hlook (domainOf r)]
        by_cases hnil : rs.filter (fun x => decide (domainOf x = domainOf r)) = []
        · rw [if_pos hnil, hnil]
          rw [if_neg (by simp)]
          simp
        · rw [if_neg hnil, if_neg (by simp)]
          simp
      · rw [if_neg hd]
        have hdec : (decide (domainOf r = d)) = false :=
          decide_eq_false (fun h => hd h.symm)
        have hfr : List.filter (fun x => decide (domainOf x = d)) [r] = [] := by
          simp [List.filter, hdec]
        rw [hfr, List.append_nil, hlook d]

theorem upsertRecipient_eq_own (m : List (String × List String)) (d r : String)
    (hd : protoProp d = false) :
    upsertRecipient m d r = some (upsertOwn m d r) := by
  induction m with
  | nil => simp [upsertRecipient, upsertOwn, hd]
  | cons g t ih =>
    obtain ⟨k, rs⟩ := g
    by_cases hk : k = d
    · simp [upsertRecipient, upsertOwn, hk]
    · simp [upsertRecipient, upsertOwn, hk, ih]

theorem domainMap_eq_groups :
    ∀ (rs : List String), (∀ r ∈ rs, protoProp (domainOf r) = false) →
      domainMap rs = some (domainGroups rs) := by
  have hgen : ∀ (rs : List String), (∀ r ∈ rs, protoProp (domainOf r) = false) →
      ∀ acc, List.foldlM (fun m r => upsertRecipient m (domainOf r) r) acc rs =
        some (List.foldl (fun m r => upsertOwn m (domainOf r) r) acc rs) := by
    intro rs
    induction rs with
    | nil =>
      intro _ acc
      rfl
    | cons r t ih =>
      intro h acc
      simp only [List.foldlM, List.foldl]
      rw [upsertRecipient_eq_own acc (domainOf r) r (h r (List.mem_cons_self r t))]
      exact ih (fun x hx => h x (List.mem_cons_of_mem r hx)) _
  intro rs h
  exact hgen rs h []

theorem countP_key_eq_one (m : List (String × List String)) (d0 : String)
    (hnd : (m.map Prod.fst).Nodup) (hmem : d0 ∈ m.map Prod.fst) :
    m.countP (fun g => decide (g.1 = d0)) = 1 := by
  induction m with
  | nil => simp at hmem
  | cons g t ih =>
    simp only [List.map_cons, List.nodup_cons] at hnd
    rw [List.countP_cons]
    rcases List.mem_cons.mp hmem with h | h
    · rw [if_pos (by simp [h.symm])]
      have : t.countP (fun g => decide (g.1 = d0)) = 0 := by
        rw [List.countP_eq_zero]
        intro a ha hpa
        apply hnd.1
        have : a.1 = d0 := by simpa using hpa
        rw [← h, ← this]
        exact List.mem_map.mpr ⟨a, ha, rfl⟩
      rw [this]
    · have hne : g.1 ≠ d0 := by
        intro he
        exact hnd.1 (he ▸ h)
      rw [if_neg (by simp [hne])]
      rw [ih hnd.2 h]

/-- C10 (counterexample): a recipient whose domain names an `Object.prototype`
property makes the grouping loop throw (`domainMap[domain].push` is called on the
inherited, non-array value), so `getRecipientsByMx` produces no groups at all and
the recipient lies in no group, contrary to the claimed partition. -/
theorem C10_cx_proto_domain_error :
    getRecipientsByMx (fun d => "mx." ++ d) ["a@ex1.com"] [] ["c@constructor"] =
        none ∧
      domainMap ["a@ex1.com", "c@constructor"] = none := by
  exact ⟨by decide, by decide⟩

/-- C10 (amended): provided no recipient domain names an `Object.prototype` property
(on those the grouping loop throws), the groups produced by `getRecipientsByMx`
partition the combined to ++ cc ++ bcc recipients: the group domains are pairwise
distinct, each group's recipient list is exactly the sublist of combined recipients
with that domain (hence in to, cc, bcc order), every group is non-empty, and every
recipient occurrence lies in exactly one group. -/
theorem C10_recipient_groups_partition (resolveMx : String → String)
    (toR ccR bccR : List String)
    (hpp : ∀ r ∈ toR ++ ccR ++ bccR, protoProp (domainOf r) = false) :
    getRecipientsByMx resolveMx toR ccR bccR =
        some ((domainGroups (toR ++ ccR ++ bccR)).map
          (fun g => ⟨resolveMx g.1, g.2⟩)) ∧
      ((domainGroups (toR ++ ccR ++ bccR)).map Prod.fst).Nodup ∧
      (∀ g ∈ domainGroups (toR ++ ccR ++ bccR),
        g.2 = (toR ++ ccR ++ bccR).filter (fun x => decide (domainOf x = g.1)) ∧
          g.2 ≠ []) ∧
      (∀ r ∈ toR ++ ccR ++ bccR,
        (domainGroups (toR ++ ccR ++ bccR)).countP (fun g => decide (r ∈ g.2)) = 1) := by
  obtain ⟨hnd, hlook⟩ := domainGroups_char (toR ++ ccR ++ bccR)
  refine ⟨?_, hnd, ?_, ?_⟩
  · unfold getRecipientsByMx
    rw [domainMap_eq_groups _ hpp]
    rfl
  · intro g hg
    obtain ⟨k, v⟩ := g
    have hv := mem_assocG _ k v hnd hg
    rw [hlook k] at hv
    by_cases hnil : (toR ++ ccR ++ bccR).filter (fun x => decide (domainOf x = k)) = []
    · rw [if_pos hnil] at hv
      exact absurd hv (by simp)
    · rw [if_neg hnil] at hv
      injection hv with hv
      exact ⟨hv.symm, fun hv0 => hnil (hv.trans hv0)⟩
  · intro r hr
    have hrfilter : r ∈
        (toR ++ ccR ++ bccR).filter (fun x => decide (domainOf x = domainOf r)) :=
      List.mem_filter.mpr ⟨hr, by simp⟩
    have hne :
        (toR ++ ccR ++ bccR).filter (fun x => decide (domainOf x = domainOf r)) ≠ [] := by
      intro h
      rw [h] at hrfilter
      simp at hrfilter
    have hlookd := hlook (domainOf r)
    rw [if_neg hne] at hlookd
    have hmemkey : domainOf r ∈ (domainGroups (toR ++ ccR ++ bccR)).map Prod.fst :=
      List.mem_map.mpr ⟨_, assocG_mem _ _ _ hlookd, rfl⟩
    have hcongr : ∀ g ∈ domainGroups (toR ++ ccR ++ bccR),
        (decide (r ∈ g.2) = true) ↔ (decide (g.1 = domainOf r) = true) := by
      intro g hg
      obtain ⟨k, v⟩ := g
      have hv := mem_assocG _ k v hnd hg
      rw [hlook k] at hv
      by_cases hnil : (toR ++ ccR ++ bccR).filter (fun x => decide (domainOf x = k)) = []
      · rw [if_pos hnil] at hv
        exact absurd hv (by simp)
      · rw [if_neg hnil] at hv
        injection hv with hv
        simp only [decide_eq_true_eq]
        constructor
        · intro hrv
          rw [← hv] at hrv
          have h2 := (List.mem_filter.mp hrv).2
          have h3 : domainOf r = k := by simpa using h2
          exact h3.symm
        · intro hk
          rw [← hv]
          exact List.mem_filter.mpr ⟨hr, by simp [hk]⟩
    rw [List.countP_congr hcongr]
    exact countP_key_eq_one _ _ hnd hmemkey

/-- C10 (witness): a concrete envelope avoids the prototype-named domains, and a
concrete recipient lies in exactly one group of its domain map. -/
theorem C10_recipient_groups_partition_witness :
    (∀ r ∈ ["a@ex1.com"] ++ ["b@ex1.com"] ++ ["c@ex2.com"],
        protoProp (domainOf r) = false) ∧
      (domainGroups (["a@ex1.com"] ++ ["b@ex1.com"] ++ ["c@ex2.com"])).countP
        (fun g => decide ("c@ex2.com" ∈ g.2)) = 1 :=
  ⟨by decide, (C10_recipient_groups_partition (fun d => d) ["a@ex1.com"] ["b@ex1.com"]
    ["c@ex2.com"] (by decide)).2.2.2 "c@ex2.com" (by decide)⟩

/-! ## The `foldLines` loop and claim C8 -/

theorem takeWhile_append_all {α : Type} (p : α → Bool) (u v : List α)
    (hu : ∀ a ∈ u, p a = true) :
    (u ++ v).takeWhile p = u ++ v.takeWhile p := by
  induction u with
  | nil => simp
  | cons a u' ih =>
    rw [List.cons_append, List.takeWhile_cons, if_pos (hu a (List.mem_cons_self a u')),
      List.cons_append, ih (fun x hx => hu x (List.mem_cons_of_mem a hx))]

theorem takeWhile_append_stop {α : Type} (p : α → Bool) (u v : List α)
    (hu : ∃ a ∈ u, p a = false) :
    (u ++ v).takeWhile p = u.takeWhile p := by
  induction u with
  | nil =>
    obtain ⟨a, ha, _⟩ := hu
    simp at ha
  | cons b u' ih =>
    rw [List.cons_append, List.takeWhile_cons, List.takeWhile_cons]
    by_cases hb : p b = true
    · rw [if_pos hb, if_pos hb]
      obtain ⟨a, ha, hpa⟩ := hu
      rcases List.mem_cons.mp ha with h | h
      · rw [h, hb] at hpa; exact absurd hpa (by simp)
      · rw [ih ⟨a, h, hpa⟩]
    · rw [if_neg hb, if_neg hb]

theorem length_takeWhile_lt {α : Type} (p : α → Bool) (u : List α)
    (hu : ∃ a ∈ u, p a = false) :
    (u.takeWhile p).length < u.length := by
  induction u with
  | nil =>
    obtain ⟨a, ha, _⟩ := hu
    simp at ha
  | cons b u' ih =>
    rw [List.takeWhile_cons]
    by_cases hb : p b = true
    · rw [if_pos hb]
      obtain ⟨a, ha, hpa⟩ := hu
      rcases List.mem_cons.mp ha with h | h
      · rw [h, hb] at hpa; exact absurd hpa (by simp)
      · simpa using ih ⟨a, h, hpa⟩
    · rw [if_neg hb]
      simp

theorem length_takeWhile_le {α : Type} (p : α → Bool) (l : List α) :
    (l.takeWhile p).length ≤ l.length := by
  induction l with
  | nil => simp
  | cons a l' ih =>
    rw [List.takeWhile_cons]
    by_cases ha : p a = true
    · rw [if_pos ha]; simpa using ih
    · rw [if_neg ha]; simp

theorem length_takeWhile_append_le {α : Type} (p : α → Bool) (u v : List α) :
    ((u ++ v).takeWhile p).length ≤ u.length + (v.takeWhile p).length := by
  induction u with
  | nil => simp
  | cons a u' ih =>
    rw [List.cons_append, List.takeWhile_cons]
    by_cases ha : p a = true
    · rw [if_pos ha]
      simp only [List.length_cons, List.length_cons]
      omega
    · rw [if_neg ha]
      simp

theorem drop_length_takeWhile {α : Type} (p : α → Bool) (l : List α) :
    l.drop (l.takeWhile p).length = l.dropWhile p := by
  induction l with
  | nil => simp
  | cons a l' ih =>
    rw [List.takeWhile_cons, List.dropWhile_cons]
    by_cases ha : p a = true
    · rw [if_pos ha, if_pos ha]
      simpa using ih
    · rw [if_neg ha, if_neg ha]
      simp

theorem length_takeWhile_add_dropWhile {α : Type} (p : α → Bool) (l : List α) :
    (l.takeWhile p).length + (l.dropWhile p).length = l.length := by
  conv_rhs => rw [← List.takeWhile_append_dropWhile p l]
  rw [List.length_append]

/-- The regex `^[^\n\r]*(\r?\n|\r)` of `foldLines`: the length of the window prefix up
to and including its first line break, if the window contains one. -/
def breakNL (line : List Char) : Option Nat :=
  match line.drop ((line.takeWhile (fun c => !(c = '\n' || c = '\r'))).length) with
  | '\r' :: '\n' :: _ =>
    some ((line.takeWhile (fun c => !(c = '\n' || c = '\r'))).length + 2)
  | '\r' :: _ => some ((line.takeWhile (fun c => !(c = '\n' || c = '\r'))).length + 1)
  | '\n' :: _ => some ((line.takeWhile (fun c => !(c = '\n' || c = '\r'))).length + 1)
  | _ => none

/-- The regex `(\s+)[^\s]*$` of `foldLines`: the length of the whole match (the last
whitespace run plus the trailing word) and of its whitespace group, if present. -/
def wsRunSplit (line : List Char) : Option (Nat × Nat) :=
  if ((line.reverse.dropWhile (fun c => !jsWS c)).takeWhile jsWS).isEmpty then none
  else
    some ((line.reverse.takeWhile (fun c => !jsWS c)).length +
        ((line.reverse.dropWhile (fun c => !jsWS c)).takeWhile jsWS).length,
      ((line.reverse.dropWhile (fun c => !jsWS c)).takeWhile jsWS).length)

/-- The regex `^[^\s]+(\s*)` applied to the remainder after the window (lengths of the
whole match and of the whitespace group). -/
def nextWordMatch (rest : List Char) : Option (Nat × Nat) :=
  let w := rest.takeWhile (fun c => !jsWS c)
  if w.isEmpty then none
  else
    let ws2 := (rest.drop w.length).takeWhile jsWS
    some (w.length + ws2.length, ws2.length)

/-- The chunk length chosen by the fold-point branches of the `foldLines` loop body
(the second and third regex alternatives): break before the last whitespace run of
the window if that leaves a shorter line, otherwise extend through the next word. -/
def foldChunkLen (lineLength : Nat) (afterSpace : Bool) (s : List Char) : Nat :=
  (wsRunSplit (s.take lineLength)).elim
    ((nextWordMatch (s.drop lineLength)).elim lineLength
      (fun nw => lineLength + (nw.1 - (if afterSpace then 0 else nw.2))))
    (fun mw =>
      if mw.1 - (if afterSpace then mw.2 else 0) < (s.take lineLength).length then
        (s.take lineLength).length - (mw.1 - (if afterSpace then mw.2 else 0))
      else
        (nextWordMatch (s.drop lineLength)).elim lineLength
          (fun nw => lineLength + (nw.1 - (if afterSpace then 0 else nw.2))))

/-- The `while` loop of `foldLines` (dkim.ts lines 226-260), with the remaining input
as the loop state.  Each iteration consumes at least one character, so a fuel of
`length + 1` runs the loop to completion.  The three regex branches of the loop body
appear in source order; branch one (an existing line break inside the window) emits
the prefix without inserting a fold, the other branches emit the chunk and insert
CRLF when input remains. -/
def foldGo (lineLength : Nat) (afterSpace : Bool) : Nat → List Char → List Char
  | 0, _ => []
  | _, [] => []
  | fuel + 1, s =>
    if (s.take lineLength).length < lineLength then s.take lineLength
    else
      (breakNL (s.take lineLength)).elim
        (s.take (foldChunkLen lineLength afterSpace s) ++
          ((if (s.drop (foldChunkLen lineLength afterSpace s)).isEmpty then []
              else ['\r', '\n']) ++
            foldGo lineLength afterSpace fuel
              (s.drop (foldChunkLen lineLength afterSpace s))))
        (fun k => s.take k ++ foldGo lineLength afterSpace fuel (s.drop k))

/-- `foldLines` (dkim.ts lines 226-260). -/
def foldLines (str : String) (lineLength : Nat) (afterSpace : Bool) : String :=
  ⟨foldGo lineLength afterSpace (str.data.length + 1) str.data⟩

/-- The length of a `\r?\n` match at the head of a list (a lone CR does not match). -/
def nlLen : List Char → Option Nat
  | '\r' :: '\n' :: _ => some 2
  | '\n' :: _ => some 1
  | _ => none

/-- The earliest match of `(?:\r?\n){2}` in a list: starting position and length. -/
def findBlankSep : List Char → Nat → Option (Nat × Nat)
  | [], _ => none
  | c :: r, i =>
    match nlLen (c :: r) with
    | some k =>
      match nlLen ((c :: r).drop k) with
      | some m => some (i, k + m)
      | none => findBlankSep r (i + 1)
    | none => findBlankSep r (i + 1)

/-- The headers/body split of `DKIMSign` (dkim.ts lines 27-29) via the regex
`^\r?\n|(?:\r?\n){2}` and its `||` fallbacks: with no match the body is the whole
email, and (as in the source) an empty remainder after the match also falls back to
the whole email because the empty string is falsy. -/
def splitEmail (email : String) : String × String :=
  let m : Option (Nat × Nat) :=
    match nlLen email.data with
    | some k => some (0, k)
    | none => findBlankSep email.data 0
  match m with
  | none => ("", email)
  | some (i, len) =>
    let body := email.data.drop (i + len)
    (⟨email.data.take i⟩, if body.isEmpty then email else ⟨body⟩)

example : splitEmail "A: 1\r\nB: 2\r\n\r\nbody text" = ("A: 1\r\nB: 2", "body text") := by
  decide
example : splitEmail "no blank line" = ("", "no blank line") := by decide
example : splitEmail "\r\nrest" = ("", "rest") := by decide
example : splitEmail "H: v\r\n\r\n" = ("H: v", "H: v\r\n\r\n") := by decide

/-- `hasUTFChars` (dkim.ts): does the string contain a non-ASCII character? -/
def hasUTFChars (s : String) : Bool := s.data.any (fun c => 0x7f < c.toNat)

/-- The default `h=` field list of `DKIMSign` (all listed fields from RFC 4871 §5.5,
without Message-Id/Date/Bounces-To/Return-Path). -/
def defaultFieldNames : String :=
  "From:Sender:Reply-To:Subject:To:Cc:MIME-Version:Content-Type:" ++
  "Content-Transfer-Encoding:Content-ID:Content-Description:Resent-Date:" ++
  "Resent-From:Resent-Sender:Resent-To:Resent-Cc:Resent-Message-ID:In-Reply-To:" ++
  "References:List-Id:List-Help:List-Unsubscribe:List-Subscribe:List-Post:" ++
  "List-Owner:List-Archive"

/-- `DKIMCanonicalizer.relaxedHeaderLine` on strings. -/
structure HeaderKV where
  key : String
  value : String
deriving DecidableEq, Repr

/-- `relaxedHeaderLine` (dkim.ts lines 169-179). -/
def relaxedHeaderLine (line : String) : HeaderKV :=
  ⟨⟨(relaxedHeaderLineL line.data).1⟩, ⟨(relaxedHeaderLineL line.data).2⟩⟩

/-- The `dkim` local of `generateDKIMHeader`: the semicolon-joined tag list, with the
SHA-256 body hash (`hash`, base64 output) and the URL-based IDNA conversion (`idna`,
for `toASCIIDomain`) external and passed as parameters. -/
def dkimHeaderValue (hash idna : String → String)
    (domainName keySelector headerFieldNames headers body : String) : String :=
  String.intercalate "; "
    ["v=1", "a=rsa-sha256", "c=relaxed/relaxed",
     "d=" ++ (if hasUTFChars domainName then idna domainName else domainName),
     "q=dns/txt", "s=" ++ keySelector, "bh=" ++ hash (relaxedBody body),
     "h=" ++ (relaxedHeaders headers headerFieldNames).fieldNames]

/-- `generateDKIMHeader` (dkim.ts lines 69-90): the folded `DKIM-Signature: ` line
with the trailing `;\r\n b=` awaiting the signature value. -/
def generateDKIMHeader (hash idna : String → String)
    (domainName keySelector headerFieldNames headers body : String) : String :=
  foldLines ("DKIM-Signature: " ++
      dkimHeaderValue hash idna domainName keySelector headerFieldNames headers body)
    76 false ++ ";\r\n b="

/-- The resolution `options.headerFieldNames || defaultFieldNames` of `DKIMSign`
(the empty string is falsy). -/
def resolveFieldNames (headerFieldNames : Option String) : String :=
  match headerFieldNames with
  | some s => if s = "" then defaultFieldNames else s
  | none => defaultFieldNames

/-- The byte string handed to the RSA-SHA256 signer by `DKIMSign` (dkim.ts lines
41-51): the canonical header block with the canonicalized DKIM-Signature line (empty
`b=` value) appended as `key:value`.  A pure function of the message, domain,
selector, requested header names and the external hash/IDNA functions. -/
def DKIMSignInput (hash idna : String → String)
    (email domainName keySelector : String) (headerFieldNames : Option String) :
    String :=
  let fns := resolveFieldNames headerFieldNames
  let hb := splitEmail email
  let dkim := generateDKIMHeader hash idna domainName keySelector fns hb.1 hb.2
  let canonicalizedHeaderData := relaxedHeaders hb.1 fns
  let canonicalizedDKIMHeader := relaxedHeaderLine dkim
  canonicalizedHeaderData.headers ++ canonicalizedDKIMHeader.key ++ ":" ++
    canonicalizedDKIMHeader.value

theorem wsRunSplit_window (r60 : List Char) (h60 : r60.length = 60) :
    ∃ m wsl, wsRunSplit ("DKIM-Signature: ".data ++ r60) = some (m, wsl) ∧
      1 ≤ m ∧ m ≤ 61 := by
  have hrev : ("DKIM-Signature: ".data ++ r60).reverse =
      r60.reverse ++ " :erutangiS-MIKD".data := by
    rw [List.reverse_append]
    rfl
  have hrtlen : r60.reverse.length = 60 := by rw [List.length_reverse]; exact h60
  unfold wsRunSplit
  rw [hrev]
  by_cases hall : ∀ c ∈ r60.reverse, (!jsWS c) = true
  · rw [takeWhile_append_all _ _ _ hall, dropWhile_append_all _ _ _ hall]
    have hwpre : " :erutangiS-MIKD".data.takeWhile (fun c => !jsWS c) = [] := by decide
    have hdpre : " :erutangiS-MIKD".data.dropWhile (fun c => !jsWS c) =
        " :erutangiS-MIKD".data := by decide
    have hwsr : (" :erutangiS-MIKD".data).takeWhile jsWS = [' '] := by decide
    rw [hwpre, hdpre, hwsr]
    refine ⟨r60.reverse.length + 0 + 1, 1, ?_, by omega, by omega⟩
    simp [List.isEmpty]
  · push_neg at hall
    obtain ⟨c0, hc0m, hc0⟩ := hall
    have hc0' : (!jsWS c0) = false := by
      cases h : (!jsWS c0) with
      | false => rfl
      | true => exact absurd h hc0
    have hex : ∃ a ∈ r60.reverse, (!jsWS a) = false := ⟨c0, hc0m, hc0'⟩
    have hdne : r60.reverse.dropWhile (fun c => !jsWS c) ≠ [] := by
      intro hnil
      exact hc0 (List.dropWhile_eq_nil_iff.mp hnil c0 hc0m)
    rw [takeWhile_append_stop _ _ _ hex]
    rw [List.dropWhile_append, if_neg (fun hie => hdne (List.isEmpty_iff.mp hie))]
    obtain ⟨c1, t1, ht1⟩ : ∃ c1 t1,
        r60.reverse.dropWhile (fun c => !jsWS c) = c1 :: t1 := by
      cases hd : r60.reverse.dropWhile (fun c => !jsWS c) with
      | nil => exact absurd hd hdne
      | cons c1 t1 => exact ⟨c1, t1, rfl⟩
    have hc1 : jsWS c1 = true := by
      have := dropWhile_head_false (fun c => !jsWS c) r60.reverse c1 t1 ht1
      simpa using this
    have hwsrne : ((r60.reverse.dropWhile (fun c => !jsWS c) ++
        " :erutangiS-MIKD".data).takeWhile jsWS) ≠ [] := by
      rw [ht1, List.cons_append, List.takeWhile_cons, if_pos hc1]
      simp
    have hwsrle : ((r60.reverse.dropWhile (fun c => !jsWS c) ++
        " :erutangiS-MIKD".data).takeWhile jsWS).length ≤
        (r60.reverse.dropWhile (fun c => !jsWS c)).length + 1 := by
      have hgen := length_takeWhile_append_le jsWS
        (r60.reverse.dropWhile (fun c => !jsWS c)) " :erutangiS-MIKD".data
      have h1 : (" :erutangiS-MIKD".data.takeWhile jsWS).length = 1 := by decide
      omega
    rw [if_neg (fun hie => hwsrne (List.isEmpty_iff.mp hie))]
    refine ⟨_, _, rfl, ?_, ?_⟩
    · have hge : 1 ≤ ((r60.reverse.dropWhile (fun c => !jsWS c) ++
          " :erutangiS-MIKD".data).takeWhile jsWS).length := by
        cases hx : (r60.reverse.dropWhile (fun c => !jsWS c) ++
            " :erutangiS-MIKD".data).takeWhile jsWS with
        | nil => exact absurd hx hwsrne
        | cons a t => simp
      omega
    · have hsum := length_takeWhile_add_dropWhile (fun c => !jsWS c) r60.reverse
      omega

theorem intercalate_splitCh (sep : Char) :
    ∀ l : List Char, List.intercalate [sep] (splitCh sep l) = l := by
  intro l
  induction l with
  | nil => simp [splitCh, List.intercalate]
  | cons c r ih =>
    simp only [splitCh]
    by_cases hc : c = sep
    · rw [if_pos hc]
      rcases h : splitCh sep r with _ | ⟨h₀, t⟩
      · exact absurd h (splitCh_ne_nil sep r)
      · rw [h] at ih
        rw [intercalate_cons_cons, ih]
        simp [hc]
    · rw [if_neg hc]
      rcases h : splitCh sep r with _ | ⟨h₀, t⟩
      · exact absurd h (splitCh_ne_nil sep r)
      · rw [h] at ih
        cases t with
        | nil =>
          rw [intercalate_singleton]
          rw [intercalate_singleton] at ih
          rw [ih]
        | cons y t' =>
          rw [intercalate_cons_cons]
          rw [intercalate_cons_cons] at ih
          simp only [List.cons_append, List.append_assoc] at ih ⊢
          rw [ih]

theorem breakNL_append_ge (p t : List Char)
    (hp : ∀ c ∈ p, (!(c = '\n' || c = '\r')) = true) (k : Nat)
    (h : breakNL (p ++ t) = some k) : p.length + 1 ≤ k := by
  unfold breakNL at h
  rw [takeWhile_append_all _ _ _ hp] at h
  have hlen : (p ++ t.takeWhile (fun c => !(c = '\n' || c = '\r'))).length =
      p.length + (t.takeWhile (fun c => !(c = '\n' || c = '\r'))).length :=
    List.length_append _ _
  rw [hlen] at h
  split at h
  · injection h with h2; omega
  · injection h with h2; omega
  · injection h with h2; omega
  · exact absurd h (by simp)

theorem foldGo_sig_prefix (fuel : Nat) (r : List Char) :
    ∃ u, foldGo 76 false (fuel + 1) ("DKIM-Signature: ".data ++ r) =
      "DKIM-Signature:".data ++ u := by
  have hsplit : "DKIM-Signature: ".data ++ r = "DKIM-Signature:".data ++ (' ' :: r) := rfl
  have h15 : "DKIM-Signature:".data.length = 15 := rfl
  have h16 : "DKIM-Signature: ".data.length = 16 := rfl
  have htake : ∀ C : Nat, 15 ≤ C → ∃ v, ("DKIM-Signature: ".data ++ r).take C =
      "DKIM-Signature:".data ++ v := by
    intro C hC15
    refine ⟨(' ' :: r).take (C - "DKIM-Signature:".data.length), ?_⟩
    rw [hsplit, List.take_append_eq_append_take,
      List.take_of_length_le (le_trans (le_of_eq h15) hC15)]
  have hstep : foldGo 76 false (fuel + 1) ("DKIM-Signature: ".data ++ r) =
      (if (("DKIM-Signature: ".data ++ r).take 76).length < 76 then
        ("DKIM-Signature: ".data ++ r).take 76
      else
        (breakNL (("DKIM-Signature: ".data ++ r).take 76)).elim
          (("DKIM-Signature: ".data ++ r).take
              (foldChunkLen 76 false ("DKIM-Signature: ".data ++ r)) ++
            ((if (("DKIM-Signature: ".data ++ r).drop
                  (foldChunkLen 76 false ("DKIM-Signature: ".data ++ r))).isEmpty then []
                else ['\r', '\n']) ++
              foldGo 76 false fuel (("DKIM-Signature: ".data ++ r).drop
                (foldChunkLen 76 false ("DKIM-Signature: ".data ++ r)))))
          (fun k => ("DKIM-Signature: ".data ++ r).take k ++
            foldGo 76 false fuel (("DKIM-Signature: ".data ++ r).drop k))) := rfl
  rw [hstep]
  by_cases hlen : (("DKIM-Signature: ".data ++ r).take 76).length < 76
  · rw [if_pos hlen]
    have hsl : ("DKIM-Signature: ".data ++ r).length ≤ 76 := by
      have := List.length_take 76 ("DKIM-Signature: ".data ++ r)
      omega
    rw [List.take_of_length_le hsl]
    exact ⟨' ' :: r, hsplit⟩
  · rw [if_neg hlen]
    have h76 : (("DKIM-Signature: ".data ++ r).take 76).length = 76 := by
      have := List.length_take 76 ("DKIM-Signature: ".data ++ r)
      omega
    have hslen : 76 ≤ ("DKIM-Signature: ".data ++ r).length := by
      have := List.length_take 76 ("DKIM-Signature: ".data ++ r)
      omega
    have hrlen : 60 ≤ r.length := by
      have := List.length_append "DKIM-Signature: ".data r
      omega
    have hwin : ("DKIM-Signature: ".data ++ r).take 76 =
        "DKIM-Signature: ".data ++ r.take 60 := by
      rw [List.take_append_eq_append_take]
      rfl
    cases hbk : breakNL (("DKIM-Signature: ".data ++ r).take 76) with
    | some k =>
      have hk : 17 ≤ k := by
        rw [hwin] at hbk
        have := breakNL_append_ge "DKIM-Signature: ".data (r.take 60) (by decide) k hbk
        omega
      obtain ⟨v, hv⟩ := htake k (by omega)
      refine ⟨v ++ foldGo 76 false fuel (("DKIM-Signature: ".data ++ r).drop k), ?_⟩
      show ("DKIM-Signature: ".data ++ r).take k ++
          foldGo 76 false fuel (("DKIM-Signature: ".data ++ r).drop k) =
        "DKIM-Signature:".data ++
          (v ++ foldGo 76 false fuel (("DKIM-Signature: ".data ++ r).drop k))
      rw [hv, List.append_assoc]
    | none =>
      obtain ⟨m, wsl, hws, hm1, hm61⟩ := wsRunSplit_window (r.take 60)
        (by rw [List.length_take]; omega)
      have hws2 : wsRunSplit (("DKIM-Signature: ".data ++ r).take 76) = some (m, wsl) := by
        rw [hwin]; exact hws
      have hC : foldChunkLen 76 false ("DKIM-Signature: ".data ++ r) = 76 - m := by
        unfold foldChunkLen
        rw [hws2]
        show (if m - (if false then wsl else 0) <
              (("DKIM-Signature: ".data ++ r).take 76).length then
            (("DKIM-Signature: ".data ++ r).take 76).length -
              (m - (if false then wsl else 0))
          else
            (nextWordMatch (("DKIM-Signature: ".data ++ r).drop 76)).elim 76
              (fun nw => 76 + (nw.1 - (if false then 0 else nw.2)))) = 76 - m
        rw [h76]
        rw [if_pos (by omega)]
        simp
      obtain ⟨v, hv⟩ := htake (foldChunkLen 76 false ("DKIM-Signature: ".data ++ r))
        (by rw [hC]; omega)
      refine ⟨v ++ ((if (("DKIM-Signature: ".data ++ r).drop
            (foldChunkLen 76 false ("DKIM-Signature: ".data ++ r))).isEmpty then []
          else ['\r', '\n']) ++
          foldGo 76 false fuel (("DKIM-Signature: ".data ++ r).drop
            (foldChunkLen 76 false ("DKIM-Signature: ".data ++ r)))), ?_⟩
      show ("DKIM-Signature: ".data ++ r).take
            (foldChunkLen 76 false ("DKIM-Signature: ".data ++ r)) ++
          ((if (("DKIM-Signature: ".data ++ r).drop
                (foldChunkLen 76 false ("DKIM-Signature: ".data ++ r))).isEmpty then []
              else ['\r', '\n']) ++
            foldGo 76 false fuel (("DKIM-Signature: ".data ++ r).drop
              (foldChunkLen 76 false ("DKIM-Signature: ".data ++ r)))) =
        "DKIM-Signature:".data ++
          (v ++ ((if (("DKIM-Signature: ".data ++ r).drop
                (foldChunkLen 76 false ("DKIM-Signature: ".data ++ r))).isEmpty then []
              else ['\r', '\n']) ++
            foldGo 76 false fuel (("DKIM-Signature: ".data ++ r).drop
              (foldChunkLen 76 false ("DKIM-Signature: ".data ++ r)))))
      rw [hv, List.append_assoc]

theorem string_eq_of_data (s t : String) (h : s.data = t.data) : s = t := by
  cases s
  cases t
  exact congrArg String.mk (by simpa using h)

theorem strData_append (s t : String) : (s ++ t).data = s.data ++ t.data := by
  cases s
  cases t
  rfl

theorem foldDKIM_data (D : String) :
    ∃ u, (foldLines ("DKIM-Signature: " ++ D) 76 false ++ ";\r\n b=").data =
      "DKIM-Signature".data ++ ':' :: (u ++ ";\r\n b=".data) := by
  have h0 : (foldLines ("DKIM-Signature: " ++ D) 76 false ++ ";\r\n b=").data =
      foldGo 76 false (("DKIM-Signature: " ++ D).data.length + 1)
        ("DKIM-Signature: " ++ D).data ++ ";\r\n b=".data := by
    rw [strData_append]
    rfl
  have hsd : ("DKIM-Signature: " ++ D).data = "DKIM-Signature: ".data ++ D.data :=
    strData_append _ _
  rw [hsd] at h0
  obtain ⟨u, hu⟩ := foldGo_sig_prefix (("DKIM-Signature: ".data ++ D.data).length) D.data
  rw [hu] at h0
  refine ⟨u, ?_⟩
  rw [h0, List.append_assoc]
  have hps : "DKIM-Signature:".data = "DKIM-Signature".data ++ [':'] := by decide
  rw [hps, List.append_assoc, List.singleton_append]

theorem relaxedHeaderLine_sig (d : String) (v : List Char)
    (hd : d.data = "DKIM-Signature".data ++ ':' :: v) :
    relaxedHeaderLine d = ⟨"dkim-signature", ⟨trimB (collapseWS v)⟩⟩ := by
  have hkv : relaxedHeaderLine d =
      ⟨⟨trimB (lowerStr (splitCh ':' d.data).headI)⟩,
       ⟨trimB (collapseWS (List.intercalate [':'] (splitCh ':' d.data).tail))⟩⟩ := rfl
  rw [hkv, hd, splitCh_sep_cons ':' _ _ (by decide)]
  have hh : (("DKIM-Signature".data :: splitCh ':' v)).headI = "DKIM-Signature".data := rfl
  have ht : (("DKIM-Signature".data :: splitCh ':' v)).tail = splitCh ':' v := rfl
  rw [hh, ht, intercalate_splitCh]
  have hk : trimB (lowerStr "DKIM-Signature".data) = "dkim-signature".data := by decide
  rw [hk]

theorem trimB_collapse_be (u : List Char) :
    ∃ z, trimB (collapseWS (u ++ ";\r\n b=".data)) = z ++ ['b', '='] := by
  have h1 : u ++ ";\r\n b=".data = (u ++ [';', '\r', '\n', ' ']) ++ ['b', '='] := by
    rw [List.append_assoc]
    congr 1
  obtain ⟨z₁, hz₁⟩ := exists_collapseWS_append ['b', '='] (by simp) (by decide)
    (u ++ [';', '\r', '\n', ' '])
  rw [h1, hz₁]
  have h2 : trimR (z₁ ++ ['b', '=']) = z₁ ++ ['b', '='] := by
    have h3 := trimR_ends_nonws (z₁ ++ ['b']) '=' (by decide)
    simpa [List.append_assoc] using h3
  unfold trimB trimL
  rw [h2, List.dropWhile_append]
  by_cases hz : (z₁.dropWhile jsWS).isEmpty
  · rw [if_pos hz]
    exact ⟨[], by decide⟩
  · rw [if_neg hz]
    exact ⟨z₁.dropWhile jsWS, rfl⟩

/-- C8: the byte string handed to the RSA-SHA256 signer by `DKIMSign` is the canonical
header block with the canonicalized DKIM-Signature line appended as
`dkim-signature:<value>`, the value ending in the empty `b=` tag; no trailing CRLF
follows it.  Determinism holds because `DKIMSignInput` is a function of the message,
domain, selector, requested header names and the external hash/IDNA functions. -/
theorem C8_signed_bytes (hash idna : String → String)
    (email domainName keySelector : String) (hfns : Option String) :
    ∃ z : String,
      DKIMSignInput hash idna email domainName keySelector hfns =
        (relaxedHeaders (splitEmail email).1 (resolveFieldNames hfns)).headers ++
          "dkim-signature:" ++ z ++ "b=" ∧
      ∀ w : String,
        DKIMSignInput hash idna email domainName keySelector hfns ≠ w ++ "\r\n" := by
  obtain ⟨u, hu⟩ := foldDKIM_data (dkimHeaderValue hash idna domainName keySelector
    (resolveFieldNames hfns) (splitEmail email).1 (splitEmail email).2)
  have hgen : (generateDKIMHeader hash idna domainName keySelector
      (resolveFieldNames hfns) (splitEmail email).1 (splitEmail email).2).data =
      "DKIM-Signature".data ++ ':' :: (u ++ ";\r\n b=".data) := hu
  have hkv := relaxedHeaderLine_sig _ _ hgen
  obtain ⟨z₂, hz₂⟩ := trimB_collapse_be u
  have hDSI : DKIMSignInput hash idna email domainName keySelector hfns =
      (relaxedHeaders (splitEmail email).1 (resolveFieldNames hfns)).headers ++
        "dkim-signature" ++ ":" ++ ⟨trimB (collapseWS (u ++ ";\r\n b=".data))⟩ := by
    have h0 : DKIMSignInput hash idna email domainName keySelector hfns =
        (relaxedHeaders (splitEmail email).1 (resolveFieldNames hfns)).headers ++
          (relaxedHeaderLine (generateDKIMHeader hash idna domainName keySelector
            (resolveFieldNames hfns) (splitEmail email).1 (splitEmail email).2)).key ++
          ":" ++
          (relaxedHeaderLine (generateDKIMHeader hash idna domainName keySelector
            (resolveFieldNames hfns) (splitEmail email).1 (splitEmail email).2)).value :=
      rfl
    rw [h0, hkv]
  refine ⟨⟨z₂⟩, ?_, ?_⟩
  · apply string_eq_of_data
    rw [hDSI]
    simp only [strData_append]
    have hz₃ : trimB (collapseWS (u ++ [';', '\r', '\n', ' ', 'b', '='])) =
        z₂ ++ ['b', '='] := hz₂
    rw [hz₃]
    simp only [List.append_assoc]
    rfl
  · intro w hw
    have h1 : (((relaxedHeaders (splitEmail email).1 (resolveFieldNames hfns)).headers ++
        "dkim-signature" ++ ":") ++
        (⟨trimB (collapseWS (u ++ ";\r\n b=".data))⟩ : String)).data =
        (w ++ "\r\n").data := congrArg String.data (hDSI.symm.trans hw)
    have hL : (((relaxedHeaders (splitEmail email).1 (resolveFieldNames hfns)).headers ++
        "dkim-signature" ++ ":") ++
        (⟨trimB (collapseWS (u ++ ";\r\n b=".data))⟩ : String)).data.getLast? =
        some '=' := by
      rw [strData_append]
      rw [show (⟨trimB (collapseWS (u ++ ";\r\n b=".data))⟩ : String).data =
        z₂ ++ ['b', '='] from hz₂]
      have hassoc : ((relaxedHeaders (splitEmail email).1
            (resolveFieldNames hfns)).headers ++ "dkim-signature" ++ ":").data ++
            (z₂ ++ ['b', '=']) =
          ((((relaxedHeaders (splitEmail email).1
            (resolveFieldNames hfns)).headers ++ "dkim-signature" ++ ":").data ++ z₂) ++
            ['b']) ++ ['='] := by
        simp
      rw [hassoc, List.getLast?_concat]
    have hR : ((w ++ "\r\n")).data.getLast? = some '\n' := by
      rw [strData_append]
      have h2 : w.data ++ "\r\n".data = (w.data ++ ['\r']) ++ ['\n'] := by
        rw [List.append_assoc]
        congr 1
      rw [h2, List.getLast?_concat]
    have hcontra : some '=' = some '\n' := by rw [← hL, ← hR, h1]
    simp at hcontra
